import Mathlib

/-!
Verification development for the MiniDecaf compiler backend: a shallow
embedding of the register allocator (`backend/reg/bruteregalloc.py`), the
RISC-V subroutine emitter (`backend/riscv/riscvasmemitter.py`), the
instruction selector, the control-flow-graph reachability computation
(`backend/dataflow/cfg.py`) and the driver (`backend/asm.py`), together
with theorems about them.

Machine integers are modelled as `Nat`/`Int` (no overflow is relevant:
offsets and counters only grow by small additions), Python exceptions as
`Except` where the error value carries the object state at the moment the
exception was raised, and Python's `random.randint` as an explicit oracle
stream of naturals that is consumed at each random choice.
-/

namespace MiniDecaf

/-! ## Register model (from `utils/riscv.py`)

Physical registers are identified by their numeric ids from `utils/riscv.py`
(`T0 = Reg(5, "t0")`, ..., `T6 = Reg(31, "t6")`, `A0 = Reg(10, "a0")`, ...,
`S1 = Reg(9, "s1")`, ..., `S11 = Reg(27, "s11")`). -/

/-- `Riscv.CallerSaved = [T0,T1,T2,T3,T4,T5,T6,A0,A1,A2,A3,A4,A5,A6,A7]` as ids. -/
def callerSaveIds : List Nat := [5, 6, 7, 28, 29, 30, 31, 10, 11, 12, 13, 14, 15, 16, 17]

/-- `Riscv.CalleeSaved = [S1,S2,S3,S4,S5,S6,S7,S8,S9,S10,S11]` as ids. -/
def calleeSaveIds : List Nat := [9, 18, 19, 20, 21, 22, 23, 24, 25, 26, 27]

/-- `Riscv.AllocatableRegs = CallerSaved + CalleeSaved`. -/
def allocatableIds : List Nat := callerSaveIds ++ calleeSaveIds

/-- `Riscv.ArgRegs = [A0,A1,A2,A3,A4,A5,A6,A7]` as ids. -/
def argRegIds : List Nat := [10, 11, 12, 13, 14, 15, 16, 17]

/-- Id of the frame pointer register `FP = Reg(8, "fp")`. -/
def fpId : Nat := 8

/-- Mutable per-register state of a `Reg` object: `occupied`, the back
reference `temp` (the index of the temp currently bound; kept stale after
unbinding, as in Python), and the function-scoped `used` flag. -/
structure RegInfo where
  occupied : Bool := false
  temp : Nat := 0
  used : Bool := false
deriving DecidableEq, Repr

/-! ## Instruction model (from `utils/tac/tacop.py` and `utils/riscv.py`) -/

/-- `InstrKind` from `utils/tac/tacop.py`. -/
inductive InstrKind where
  | label | seq | jmp | condJmp | ret | call
deriving DecidableEq, Repr

/-- An operand of a backend instruction: either a virtual `Temp` (identified
by its index) or a physical `Reg` (identified by its id); mirrors the
`isinstance(temp, Reg)` dispatch in `BruteRegAlloc.allocForLoc`. -/
inductive Operand where
  | temp (idx : Nat)
  | reg (id : Nat)
deriving DecidableEq, Repr

/-- The `.index` attribute of an operand (Python `Temp.index`). -/
def Operand.index : Operand → Nat
  | .temp i => i
  | .reg i => i

/-- A machine instruction as seen by the register allocator: its kind, its
destination and source operand lists (for a `Riscv.Call`, the sources are
exactly the argument temps, as in `Riscv.Call.__init__`). -/
structure MInstr where
  kind : InstrKind
  dsts : List Operand := []
  srcs : List Operand := []
  labelArg : Nat := 0
deriving DecidableEq, Repr

/-- `TACInstr.isCall` specialised to the kinds used by the backend. -/
def MInstr.isCall (i : MInstr) : Bool := i.kind = InstrKind.call

/-- An element appended to `RiscvSubroutineEmitter.buf`:
`Riscv.NativeStoreWord(reg, FP, off)`, `Riscv.NativeLoadWord(reg, FP, off)`,
a register-filled instruction appended by `emitAsm` (recorded together with
the register assignment produced by `fillRegs`), or a label appended by
`emitLabel`. -/
inductive EmitItem where
  | storeW (reg : Nat) (off : Nat)
  | loadW (reg : Nat) (off : Nat)
  | asm (instr : MInstr) (dstRegs srcRegs : List Nat)
  | lab (l : Nat)
deriving DecidableEq, Repr

/-! ## Association-list dictionaries (Python `dict` keyed by `int`) -/

/-- Lookup in an association list, first match (Python `d.get(k)` /
`d[k]`). -/
def dictLookup (m : List (Nat × Nat)) (k : Nat) : Option Nat :=
  match m with
  | [] => none
  | p :: rest => if p.1 = k then some p.2 else dictLookup rest k

/-- `d[k] = v`: update in place when the key exists, append otherwise. -/
def dictInsert (m : List (Nat × Nat)) (k v : Nat) : List (Nat × Nat) :=
  match m with
  | [] => [(k, v)]
  | p :: rest => if p.1 = k then (k, v) :: rest else p :: dictInsert rest k v

/-- `d.pop(k)`. -/
def dictErase (m : List (Nat × Nat)) (k : Nat) : List (Nat × Nat) :=
  match m with
  | [] => []
  | p :: rest => if p.1 = k then rest else p :: dictErase rest k

/-! ## The subroutine emitter (`RiscvSubroutineEmitter`) -/

/-- State of a `RiscvSubroutineEmitter`: the next free stack offset, the
temp-index → stack-offset map, and the instruction buffer `buf`.
A fresh emitter has `nextLocalOffset = 4 * len(Riscv.CalleeSaved) + 8 = 52`
(the comment in the source: `+ 4 is for the RA reg`), empty `offsets` and
empty `buf`. -/
structure SubEmitter where
  nextLocalOffset : Nat := 4 * calleeSaveIds.length + 8
  offsets : List (Nat × Nat) := []
  buf : List EmitItem := []
deriving DecidableEq, Repr

/-- `RiscvSubroutineEmitter.emitStoreToStack`, keyed directly by the temp
index read from `src.temp.index`: assign the next free offset on first
store of the temp, then append `Riscv.NativeStoreWord(src, Riscv.FP, off)`. -/
def emitStoreIdx (e : SubEmitter) (rId tIdx : Nat) : SubEmitter :=
  match dictLookup e.offsets tIdx with
  | some off => { e with buf := e.buf ++ [.storeW rId off] }
  | none =>
      { e with
        offsets := e.offsets ++ [(tIdx, e.nextLocalOffset)]
        nextLocalOffset := e.nextLocalOffset + 4
        buf := e.buf ++ [.storeW rId e.nextLocalOffset] }

/-- `RiscvSubroutineEmitter.emitLoadFromStack`: raise
`IllegalArgumentException` when the temp has no assigned offset (the error
value carries the emitter state at the raise, which is unchanged), else
append `Riscv.NativeLoadWord(dst, Riscv.FP, off)`. -/
def emitLoadFromStack (e : SubEmitter) (dstR tIdx : Nat) : Except SubEmitter SubEmitter :=
  match dictLookup e.offsets tIdx with
  | none => .error e
  | some off => .ok { e with buf := e.buf ++ [.loadW dstR off] }

/-- `RiscvSubroutineEmitter.emitAsm`. -/
def emitAsm (e : SubEmitter) (i : MInstr) (dstRegs srcRegs : List Nat) : SubEmitter :=
  { e with buf := e.buf ++ [.asm i dstRegs srcRegs] }

/-- `RiscvSubroutineEmitter.emitLabel`. -/
def emitLabel (e : SubEmitter) (l : Nat) : SubEmitter :=
  { e with buf := e.buf ++ [.lab l] }

/-- An abstract client operation on a `RiscvSubroutineEmitter`, used to
quantify over all states reachable from a fresh emitter: a store of a
register whose bound temp has index `tIdx`, a load request, an `emitAsm`,
or an `emitLabel`. A load with no assigned offset raises in Python; the
state at the raise is the unchanged state, which `applyOp` keeps. -/
inductive EmitOp where
  | store (rId tIdx : Nat)
  | load (rId tIdx : Nat)
  | asmOp (i : MInstr)
  | labOp (l : Nat)

/-- Apply one client operation. -/
def applyOp (e : SubEmitter) : EmitOp → SubEmitter
  | .store rId tIdx => emitStoreIdx e rId tIdx
  | .load rId tIdx =>
      match emitLoadFromStack e rId tIdx with
      | .ok e' => e'
      | .error e' => e'
  | .asmOp i => emitAsm e i [] []
  | .labOp l => emitLabel e l

/-- All emitter states reachable from a fresh `RiscvSubroutineEmitter`. -/
def runOps (ops : List EmitOp) : SubEmitter :=
  ops.foldl applyOp {}

/-! ## Textual rendering with immediate-range assertions (`utils/riscv.py`) -/

/-- `Riscv.SPAdd.__str__`: `assert -2048 <= self.offset <= 2047` then render;
`none` models the `AssertionError`. -/
def spAddStr (off : Int) : Option String :=
  if -2048 ≤ off ∧ off ≤ 2047 then
    some ("addi sp, sp, " ++ toString off)
  else none

/-- `Riscv.NativeStoreWord.__str__` with the same assertion. -/
def nativeStoreWordStr (src base : Nat) (off : Int) : Option String :=
  if -2048 ≤ off ∧ off ≤ 2047 then
    some ("sw r" ++ toString src ++ ", " ++ toString off ++ "(r" ++ toString base ++ ")")
  else none

/-- `Riscv.NativeLoadWord.__str__` with the same assertion. -/
def nativeLoadWordStr (dst base : Nat) (off : Int) : Option String :=
  if -2048 ≤ off ∧ off ≤ 2047 then
    some ("lw r" ++ toString dst ++ ", " ++ toString off ++ "(r" ++ toString base ++ ")")
  else none

/-- Render one buffered item as `RiscvSubroutineEmitter.emitFunc` prints it;
only the native stack accesses carry the assertion. -/
def renderItem : EmitItem → Option String
  | .storeW r off => nativeStoreWordStr r fpId (off : Int)
  | .loadW r off => nativeLoadWordStr r fpId (off : Int)
  | .asm _ _ _ => some "instr"
  | .lab _ => some "label:"

/-- Sequence of `Option`s: `none` as soon as any render fails, as the first
failing `assert` aborts Python's printing. -/
def renderAll : List (Option String) → Option (List String)
  | [] => some []
  | o :: rest =>
      match o with
      | none => none
      | some s =>
          match renderAll rest with
          | none => none
          | some l => some (s :: l)

/-- The callee-saved registers saved by the prologue of
`RiscvSubroutineEmitter.emitFunc`: `Riscv.CalleeSaved[i]` is saved iff its
`used` flag is set at emission time (`isUsed()`), at offset `4 * i`. -/
def emitFuncSaveIds (used : Nat → Bool) : List Nat :=
  calleeSaveIds.filter used

/-- The full printed output of `RiscvSubroutineEmitter.emitFunc` (comments
and blank lines dropped): prologue — `SPAdd(-nextLocalOffset)`, store of the
old FP at `len(CalleeSaved)*4 + 4 = 48`, `mv fp, sp`, the used callee-saved
registers at offsets `4*i`, RA at `len(CalleeSaved)*4 = 44` — then the body
buffer, then the epilogue — the symmetric loads, `mv sp, fp`, reload FP,
`SPAdd(+nextLocalOffset)`, `ret`. `none` models an `AssertionError` raised
while printing. -/
def renderFunc (used : Nat → Bool) (e : SubEmitter) : Option (List String) :=
  renderAll
    ([spAddStr (-(e.nextLocalOffset : Int)),
      nativeStoreWordStr fpId 2 ((calleeSaveIds.length * 4 + 4 : Nat) : Int),
      some "mv fp, sp"]
     ++ ((emitFuncSaveIds used).enum.map
          (fun p => nativeStoreWordStr p.2 fpId ((4 * p.1 : Nat) : Int)))
     ++ [nativeStoreWordStr 1 fpId ((calleeSaveIds.length * 4 : Nat) : Int)]
     ++ e.buf.map renderItem
     ++ ((emitFuncSaveIds used).enum.map
          (fun p => nativeLoadWordStr p.2 fpId ((4 * p.1 : Nat) : Int)))
     ++ [nativeLoadWordStr 1 fpId ((calleeSaveIds.length * 4 : Nat) : Int),
         some "mv sp, fp",
         nativeLoadWordStr fpId 2 ((calleeSaveIds.length * 4 + 4 : Nat) : Int),
         spAddStr ((e.nextLocalOffset : Nat) : Int),
         some "ret"])

/-! ## Instruction selection (`RiscvAsmEmitter.RiscvInstrSelector.visitBinary`) -/

/-- `TacBinaryOp` from `utils/tac/tacop.py`. -/
inductive TacBinaryOp where
  | add | lor | sub | mul | div | mod | land | equ | neq | slt | leq | sgt | geq
deriving DecidableEq, Repr

/-- `RvBinaryOp` from `utils/riscv.py`. -/
inductive RvBinaryOp where
  | add | or | sub | mul | div | rem | and | xor | slt
deriving DecidableEq, Repr

/-- `RvUnaryOp` from `utils/riscv.py`. -/
inductive RvUnaryOp where
  | neg | snez | not | seqz
deriving DecidableEq, Repr

/-- A RISC-V instruction produced by the selector: `Riscv.Binary(op, dst,
src0, src1)`, `Riscv.Unary(op, dst, src)`, the special register `ZERO`
appearing as an operand is encoded as an `Operand.reg 0`. -/
inductive RvInstr where
  | binary (op : RvBinaryOp) (dst src0 src1 : Operand)
  | unary (op : RvUnaryOp) (dst src : Operand)
deriving DecidableEq, Repr

/-- `Riscv.ZERO = Reg(0, "x0")` as an operand. -/
def zeroReg : Operand := .reg 0

/-- `RiscvInstrSelector.visitBinary`: the sequence of RISC-V instructions
appended to `self.seq` for one TAC `Binary(op, dst, lhs, rhs)`. -/
def visitBinary (op : TacBinaryOp) (dst lhs rhs : Operand) : List RvInstr :=
  match op with
  | .lor => [.binary .or dst lhs rhs, .unary .snez dst dst]
  | .land => [.unary .snez dst lhs, .binary .sub dst zeroReg dst,
              .binary .and dst dst rhs, .unary .snez dst dst]
  | .equ => [.binary .xor dst lhs rhs, .unary .seqz dst dst]
  | .neq => [.binary .xor dst lhs rhs, .unary .snez dst dst]
  | .slt => [.binary .slt dst lhs rhs]
  | .sgt => [.binary .slt dst rhs lhs]
  | .leq => [.binary .slt dst rhs lhs, .unary .seqz dst dst]
  | .geq => [.binary .slt dst lhs rhs, .unary .seqz dst dst]
  | .add => [.binary .add dst lhs rhs]
  | .sub => [.binary .sub dst lhs rhs]
  | .mul => [.binary .mul dst lhs rhs]
  | .div => [.binary .div dst lhs rhs]
  | .mod => [.binary .rem dst lhs rhs]

/-! ## CFG reachability (`backend/dataflow/cfg.py`) -/

/-- Successors of node `u` as recorded in `links[u][1]`, built from the edge
list (`for (u, v) in edges: links[u][1].add(v)`). -/
def getSucc (edges : List (Nat × Nat)) (u : Nat) : List Nat :=
  (edges.filter (fun p => p.1 = u)).map (fun p => p.2)

/-- The recursive `dfs` inside `CFG.computeReachability`, with explicit fuel
bounding the recursion depth (each level that recurses marks a previously
unmarked node, so `n + 1` fuel always suffices; see `dfs_closed`). -/
def dfs (edges : List (Nat × Nat)) : Nat → List Bool → Nat → List Bool
  | 0, vis, _ => vis
  | fuel + 1, vis, u =>
      if vis.getD u false then vis
      else (getSucc edges u).foldl (dfs edges fuel) (vis.set u true)

/-- `CFG.computeReachability`: `reachable = [False] * len(nodes); dfs(0)`. -/
def computeReachability (n : Nat) (edges : List (Nat × Nat)) : List Bool :=
  dfs edges (n + 1) (List.replicate n false) 0

/-- `CFG.isReachable`. -/
def isReachable (n : Nat) (edges : List (Nat × Nat)) (id : Nat) : Bool :=
  (computeReachability n edges).getD id false

/-- The edge-step relation declared at CFG construction. -/
def EdgeStep (edges : List (Nat × Nat)) (u v : Nat) : Prop := (u, v) ∈ edges

/-! ## The register allocator (`backend/reg/bruteregalloc.py`)

The allocator's mutable state: the `bindings` dict (temp index → register
id) together with the shared table of `Reg` objects, indexed by register
id (`regs.getD id` is the state of the `Reg` object with that id). -/

/-- Allocator state: `BruteRegAlloc.bindings` plus the long-lived register
table from `utils/riscv.py`, as a total map from register id to the
mutable state of that `Reg` object. -/
structure AllocState where
  bindings : List (Nat × Nat) := []
  regs : Nat → RegInfo := fun _ => {}

/-- Read one `Reg` object. -/
def getReg (s : AllocState) (rId : Nat) : RegInfo := s.regs rId

/-- Replace one `Reg` object. -/
def setReg (s : AllocState) (rId : Nat) (ri : RegInfo) : AllocState :=
  { s with regs := fun x => if x = rId then ri else s.regs x }

/-- `BruteRegAlloc.bind`: `reg.used = True; bindings[temp.index] = reg;
reg.occupied = True; reg.temp = temp`. -/
def bindTemp (s : AllocState) (tIdx rId : Nat) : AllocState :=
  let s := setReg s rId { occupied := true, temp := tIdx, used := true }
  { s with bindings := dictInsert s.bindings tIdx rId }

/-- `BruteRegAlloc.unbind`: if the temp is bound, clear `occupied` on the
register its binding points to and pop the binding. -/
def unbindTemp (s : AllocState) (tIdx : Nat) : AllocState :=
  match dictLookup s.bindings tIdx with
  | none => s
  | some rId =>
      let s := setReg s rId { getReg s rId with occupied := false }
      { s with bindings := dictErase s.bindings tIdx }

/-- The scan in `BruteRegAlloc.allocRegFor`: the first allocatable register
that is not occupied or whose occupant temp is not live. -/
def findAvail (s : AllocState) (live : List Nat) : List Nat → Option Nat
  | [] => none
  | r :: rest =>
      let ri := getReg s r
      if (!ri.occupied) || (!live.contains ri.temp) then some r
      else findAvail s live rest

/-- The take-over branch of `BruteRegAlloc.allocRegFor`, entered for the
first scanned register that is unoccupied or holds a dead temp: load the
temp's slot if the use is a read (this may raise), evict the dead
occupant if any, and bind. -/
def allocTake (s : AllocState) (e : SubEmitter) (tIdx : Nat) (isRead : Bool) (r : Nat) :
    Except SubEmitter (AllocState × SubEmitter) := do
  let e ← if isRead then emitLoadFromStack e r tIdx else .ok e
  let s := if (getReg s r).occupied then unbindTemp s (getReg s r).temp else s
  .ok (bindTemp s tIdx r, e)

/-- The random-eviction branch of `BruteRegAlloc.allocRegFor`: spill the
chosen register's occupant to its stack slot, unbind it, bind the new
temp, and load its slot if the use is a read. -/
def allocEvict (s : AllocState) (e : SubEmitter) (tIdx : Nat) (isRead : Bool) (r : Nat) :
    Except SubEmitter (AllocState × SubEmitter) :=
  let e := emitStoreIdx e r (getReg s r).temp
  let s := unbindTemp s (getReg s r).temp
  let s := bindTemp s tIdx r
  do
    let e ← if isRead then emitLoadFromStack e r tIdx else .ok e
    .ok (s, e)

/-- `BruteRegAlloc.allocRegFor`. The oracle list supplies the values of
`random.randint(0, len(allocatableRegs) - 1)` (reduced mod the register
count) and is consumed only on the random-eviction path. Errors propagate
an uncaught `IllegalArgumentException` from `emitLoadFromStack`. -/
def allocRegFor (s : AllocState) (e : SubEmitter) (o : List Nat)
    (tIdx : Nat) (isRead : Bool) (live : List Nat) :
    Except SubEmitter (AllocState × SubEmitter × List Nat × Nat) :=
  match dictLookup s.bindings tIdx with
  | some r => .ok (s, e, o, r)
  | none =>
      match findAvail s live allocatableIds with
      | some r => do
          let (s, e) ← allocTake s e tIdx isRead r
          .ok (s, e, o, r)
      | none =>
          let r := allocatableIds.getD (o.headD 0 % allocatableIds.length) 0
          do
            let (s, e) ← allocEvict s e tIdx isRead r
            .ok (s, e, o.tail, r)

/-- The loop of the caller-save spill step: store each snapshot register to
its occupant temp's slot and unbind the occupant. -/
def spillList (s : AllocState) (e : SubEmitter) : List Nat → AllocState × SubEmitter
  | [] => (s, e)
  | r :: rest =>
      let e' := emitStoreIdx e r (getReg s r).temp
      let s' := unbindTemp s (getReg s r).temp
      spillList s' e' rest

/-- The caller-save spill step at a `Call` (`allocForLoc`, the
`savedCallerRegs` snapshot and the loop storing and unbinding each one). -/
def spillCallerSaved (s : AllocState) (e : SubEmitter) : AllocState × SubEmitter :=
  spillList s e (callerSaveIds.filter (fun r => (getReg s r).occupied))

/-- The argument-binding loop at a `Call`: for each argument index below
`len(Riscv.ArgRegs)`, evict whatever occupies the fixed argument register,
bind the argument temp to it and load the temp's stack slot into it;
arguments past the register count are silently skipped (`pass`). -/
def bindCallArgs (s : AllocState) (e : SubEmitter) :
    List (Nat × Operand) → Except SubEmitter (AllocState × SubEmitter)
  | [] => .ok (s, e)
  | (idx, a) :: rest =>
      if idx < argRegIds.length then
        let r := argRegIds.getD idx 0
        let s := if (getReg s r).occupied then unbindTemp s (getReg s r).temp else s
        let s := bindTemp s a.index r
        match emitLoadFromStack e r a.index with
        | .error e' => .error e'
        | .ok e => bindCallArgs s e rest
      else bindCallArgs s e rest

/-- The whole `if instr.isCall():` block of `BruteRegAlloc.allocForLoc`
(lines 93–109): spill and unbind every occupied caller-saved register,
then bind the call arguments to the fixed argument registers. -/
def callPhase (s : AllocState) (e : SubEmitter) (args : List Operand) :
    Except SubEmitter (AllocState × SubEmitter) :=
  let p := spillCallerSaved s e
  bindCallArgs p.1 p.2 args.enum

/-- The operand loops of `allocForLoc`: already-physical registers pass
through, bare temps go through `allocRegFor`; returns the filled register
list in order. -/
def allocOperands (s : AllocState) (e : SubEmitter) (o : List Nat)
    (isRead : Bool) (live : List Nat) :
    List Operand → Except SubEmitter (AllocState × SubEmitter × List Nat × List Nat)
  | [] => .ok (s, e, o, [])
  | op :: rest =>
      match op with
      | .reg r => do
          let (s, e, o, regs) ← allocOperands s e o isRead live rest
          .ok (s, e, o, r :: regs)
      | .temp t => do
          let (s, e, o, r) ← allocRegFor s e o t isRead live
          let (s, e, o, regs) ← allocOperands s e o isRead live rest
          .ok (s, e, o, r :: regs)

/-- The operand-assignment and emission tail of `allocForLoc`: fill source
then destination registers, then `instr.fillRegs(...)`/`emitAsm(instr)`
appending the filled instruction. -/
def allocOpsAndEmit (s : AllocState) (e : SubEmitter) (o : List Nat)
    (instr : MInstr) (liveIn : List Nat) :
    Except SubEmitter (AllocState × SubEmitter × List Nat) :=
  match allocOperands s e o true liveIn instr.srcs with
  | .error err => .error err
  | .ok (s, e, o, srcRegs) =>
      match allocOperands s e o false liveIn instr.dsts with
      | .error err => .error err
      | .ok (s, e, o, dstRegs) => .ok (s, emitAsm e instr dstRegs srcRegs, o)

/-- `BruteRegAlloc.allocForLoc`: the call phase when the instruction is a
`Call`, then source and destination register assignment and emission. -/
def allocForLoc (s : AllocState) (e : SubEmitter) (o : List Nat)
    (instr : MInstr) (liveIn : List Nat) :
    Except SubEmitter (AllocState × SubEmitter × List Nat) :=
  if instr.isCall then
    match callPhase s e instr.srcs with
    | .error err => .error err
    | .ok (s, e) => allocOpsAndEmit s e o instr liveIn
  else allocOpsAndEmit s e o instr liveIn

/-! ## Basic blocks and whole-function allocation

`backend/dataflow/basicblock.py` and `backend/dataflow/loc.py` are not part
of the sources at hand; the structures below are modelled from the spec. -/

/-- Modelled from the spec: a `Loc` is one instruction wrapped with the
live-in set holding at that exact program point (spec §3, `Loc`). -/
structure Loc where
  instr : MInstr
  liveIn : List Nat := []
deriving DecidableEq, Repr

/-- Modelled from the spec: `BlockKind` — a block either falls through to
its textual successor (`continuous`) or ends in its one terminator, a
jump, a conditional jump or a return (spec §3/§4.1). -/
inductive BlockKind where
  | continuous | endByJump | endByCondJump | endByReturn
deriving DecidableEq, Repr

/-- Modelled from the spec: a `BasicBlock` — integer id, optional entry
label, ordered `locs`, kind, and the computed `liveOut` set of temp
indices (spec §3, `BasicBlock`). -/
structure BasicBlock where
  id : Nat
  kind : BlockKind
  label : Option Nat := none
  locs : List Loc := []
  liveOut : List Nat := []
deriving DecidableEq, Repr

/-- Modelled from the spec: `BasicBlock.allSeq()` — the instructions
processed by the per-instruction loop of `localAlloc`, i.e. all of `locs`
for a fallthrough block and all but the final terminator otherwise (spec
§4.4 step 2/3: the terminator of a non-fallthrough block is allocated
last, separately). -/
def BasicBlock.allSeq (bb : BasicBlock) : List Loc :=
  if bb.kind = BlockKind.continuous then bb.locs else bb.locs.dropLast

/-- `BasicBlock.isEmpty()`. -/
def BasicBlock.isEmpty (bb : BasicBlock) : Bool := bb.locs.length = 0

/-- The default `Loc` used to give `List.getLastD` a value; never reached
under the `isEmpty` guard. -/
instance : Inhabited Loc := ⟨⟨⟨InstrKind.seq, [], [], 0⟩, []⟩⟩

/-- `for reg in allocatableRegs: reg.occupied = False` at the start of
`localAlloc`. -/
def resetOccupied (s : AllocState) : AllocState :=
  allocatableIds.foldl (fun s r => setReg s r { getReg s r with occupied := false }) s

/-- The instruction loop of `localAlloc` over `bb.allSeq()`
(`emitComment` is a `pass` in `RiscvSubroutineEmitter` and emits nothing). -/
def allocSeqList (s : AllocState) (e : SubEmitter) (o : List Nat) :
    List Loc → Except SubEmitter (AllocState × SubEmitter × List Nat)
  | [] => .ok (s, e, o)
  | loc :: rest => do
      let (s, e, o) ← allocForLoc s e o loc.instr loc.liveIn
      allocSeqList s e o rest

/-- The block-exit store loop of `localAlloc`: for every temp index in
`bb.liveOut` that has a binding, store the bound register to the temp's
stack slot (`emitStoreToStack(self.bindings.get(tempindex))`, which keys
the slot by the register's own `temp` back reference). -/
def exitStores (s : AllocState) (e : SubEmitter) (liveOut : List Nat) : SubEmitter :=
  liveOut.foldl
    (fun e t =>
      match dictLookup s.bindings t with
      | some r => emitStoreIdx e r (getReg s r).temp
      | none => e)
    e

/-- The terminator `bb.locs[len(bb.locs) - 1]` accessed by `localAlloc`
(the default is never reached under the `isEmpty` guard). -/
def termLoc (bb : BasicBlock) : Loc := bb.locs.getLastD default

/-- The block-exit part of `localAlloc`: store the live-out bound temps,
allocate the terminator of a non-fallthrough block last, and clear all
bindings. -/
def localAllocExit (s : AllocState) (e : SubEmitter) (o : List Nat) (bb : BasicBlock) :
    Except SubEmitter (AllocState × SubEmitter × List Nat) :=
  let e := exitStores s e bb.liveOut
  if (!bb.isEmpty) && !(bb.kind = BlockKind.continuous) then
    match allocForLoc s e o (termLoc bb).instr (termLoc bb).liveIn with
    | .error err => .error err
    | .ok (s, e, o) => .ok ({ s with bindings := [] }, e, o)
  else .ok ({ s with bindings := [] }, e, o)

/-- `BruteRegAlloc.localAlloc`: reset `occupied`, allocate the straight-line
instructions, then the block-exit stores, terminator and binding clear. -/
def localAlloc (s : AllocState) (e : SubEmitter) (o : List Nat) (bb : BasicBlock) :
    Except SubEmitter (AllocState × SubEmitter × List Nat) :=
  match allocSeqList (resetOccupied s) e o bb.allSeq with
  | .error err => .error err
  | .ok (s, e, o) => localAllocExit s e o bb

/-- `SubroutineInfo` (`backend/subroutineinfo.py`): entry label and the
ordered argument temps. -/
structure SubroutineInfo where
  funcLabel : Nat
  args : List Nat := []
deriving DecidableEq, Repr

/-- A CFG as handed to `BruteRegAlloc.accept`: the node list and the edge
list from which reachability is computed. -/
structure CFGData where
  nodes : List BasicBlock
  edges : List (Nat × Nat) := []
deriving DecidableEq, Repr

/-- One step of the argument pre-binding loop at the top of
`BruteRegAlloc.accept`: `self.bind(arg, Riscv.ArgRegs[idx])` when the
argument index is below the argument-register count, `pass` otherwise. -/
def bindArgStep (s : AllocState) (p : Nat × Nat) : AllocState :=
  if p.1 < argRegIds.length then bindTemp s p.2 (argRegIds.getD p.1 0) else s

/-- The argument pre-binding loop at the top of `BruteRegAlloc.accept`. -/
def acceptBindArgs (s : AllocState) (args : List Nat) : AllocState :=
  args.enum.foldl bindArgStep s

/-- The block loop of `accept`: skip unreachable blocks, emit the entry
label of a labelled block, then `localAlloc`. -/
def acceptBlocks (n : Nat) (edges : List (Nat × Nat)) :
    AllocState → SubEmitter → List Nat → List BasicBlock →
    Except SubEmitter (AllocState × SubEmitter × List Nat)
  | s, e, o, [] => .ok (s, e, o)
  | s, e, o, bb :: rest =>
      if isReachable n edges bb.id then
        let e := match bb.label with
          | some l => emitLabel e l
          | none => e
        do
          let (s, e, o) ← localAlloc s e o bb
          acceptBlocks n edges s e o rest
      else acceptBlocks n edges s e o rest

/-- `BruteRegAlloc.accept`: fresh `RiscvSubroutineEmitter`, pre-bind the
argument temps, allocate every reachable block, then `emitFunc` (whose printed
output is modelled separately; the returned emitter carries the frame
data it prints). -/
def accept (s : AllocState) (o : List Nat) (g : CFGData) (info : SubroutineInfo) :
    Except SubEmitter (AllocState × SubEmitter × List Nat) :=
  let e : SubEmitter := {}
  let s := acceptBindArgs s info.args
  acceptBlocks g.nodes.length g.edges s e o g.nodes

/-- One step of the `used`-flag reset loop of `BruteRegAlloc.__init__`. -/
def initUsedStep (regs : Nat → RegInfo) (r : Nat) : Nat → RegInfo :=
  fun x => if x = r then { regs r with used := false } else regs x

/-- `BruteRegAlloc.__init__`: fresh empty bindings and `reg.used = False`
for every allocatable register. Run once per `Asm.transform`, i.e. once
per program. -/
def bruteRegAllocInit (s : AllocState) : AllocState :=
  { bindings := [], regs := allocatableIds.foldl initUsedStep s.regs }

/-- The register table as it stands at module load (fresh `Reg` objects). -/
def initRegFile : AllocState := {}

/-- `Asm.transform` (`backend/asm.py`): construct the allocator once (the
single `used`-flag reset), then run `accept` for every function in program
order. The per-function instruction selection, CFG construction and
liveness analysis are deterministic and oracle-free, so functions are
taken here in already-analysed form; of each function's `emitFunc` output
this model keeps the claim-relevant data: the frame size
(`nextLocalOffset`) and the callee-saved registers the prologue saves
(`emitFuncSaveIds` of the `used` flags at emission time). -/
def transform (prog : List (CFGData × SubroutineInfo)) (o : List Nat) :
    Except SubEmitter (AllocState × List Nat × List (Nat × List Nat)) :=
  (prog.foldlM
    (fun acc f => do
      let (s, e, o) ← accept acc.1 acc.2.1 f.1 f.2
      .ok (s, o, acc.2.2 ++ [(e.nextLocalOffset, emitFuncSaveIds (fun r => (getReg s r).used))]))
    (bruteRegAllocInit initRegFile, o, []))


/-! ## Concrete inputs and result projections for witnesses and
counterexamples -/

/-- Projection of an allocation result to the frame size the emitter's
`emitFunc` allocates (`nextLocalOffset`). -/
def frameOf (x : Except SubEmitter (AllocState × SubEmitter × List Nat)) : Option Nat :=
  match x with
  | .ok p => some p.2.1.nextLocalOffset
  | .error _ => none

/-- Projection of an allocation result to one register's `used` flag. -/
def usedOf (x : Except SubEmitter (AllocState × SubEmitter × List Nat)) (r : Nat) :
    Option Bool :=
  match x with
  | .ok p => some ((getReg p.1 r).used)
  | .error _ => none

/-- Projection of an allocation result to the final `bindings` map. -/
def bindingsOf (x : Except SubEmitter (AllocState × SubEmitter × List Nat)) :
    Option (List (Nat × Nat)) :=
  match x with
  | .ok p => some p.1.bindings
  | .error _ => none

/-- Projection of a `transform` result to the per-function frame sizes and
prologue callee-save lists. -/
def framesOf (x : Except SubEmitter (AllocState × List Nat × List (Nat × List Nat))) :
    Option (List (Nat × List Nat)) :=
  match x with
  | .ok p => some p.2.2
  | .error _ => none

/-- A straight-line `Loc` defining temp `j` (e.g. a selected `li`), with
the honest live-in set of the programs below: all earlier temps live. -/
def mkDefLoc (j : Nat) : Loc := ⟨⟨InstrKind.seq, [.temp j], [], 0⟩, List.range j⟩

/-- First block of the frame-size program: define temps 0–25 (filling all
26 allocatable registers with live values), then `t26 = t24 + t25`
(forcing one random eviction at the destination), then `t27 = t0 + t0`
(whose source may or may not need a reload depending on the eviction
choice). Falls through; temps 1–23 and 26 are live out. The per-`Loc`
live-in sets are the liveness analyzer's backward fixed point for this
code. -/
def blkFrameA : BasicBlock :=
  { id := 0, kind := .continuous, label := none,
    locs := (List.range 26).map mkDefLoc ++
      [⟨⟨InstrKind.seq, [.temp 26], [.temp 24, .temp 25], 0⟩, List.range 26⟩,
       ⟨⟨InstrKind.seq, [.temp 27], [.temp 0, .temp 0], 0⟩, List.range 24 ++ [26]⟩],
    liveOut := List.range' 1 23 ++ [26] }

/-- Second block of the frame-size program: a labelled block consuming
temps 1–23 and 26 through a call (`t28 = f(t1, ..., t23, t26)` as selected:
the `Riscv.Call` then the move of `A0` into `t28`), then `return t28` (move
into `A0`, jump to epilogue). -/
def blkFrameB : BasicBlock :=
  { id := 1, kind := .endByReturn, label := some 100,
    locs := [⟨⟨InstrKind.call, [.temp 28], (List.range' 1 23 ++ [26]).map .temp, 0⟩,
               List.range' 1 23 ++ [26]⟩,
             ⟨⟨InstrKind.seq, [.temp 28], [.reg 10], 0⟩, []⟩,
             ⟨⟨InstrKind.seq, [.reg 10], [.temp 28], 0⟩, [28]⟩,
             ⟨⟨InstrKind.ret, [], [], 0⟩, []⟩],
    liveOut := [] }

/-- The two-block function whose frame size depends on the random eviction
choice. -/
def cfgFrame : CFGData := { nodes := [blkFrameA, blkFrameB], edges := [(0, 1)] }

/-- Its `SubroutineInfo`: no parameters. -/
def infoFrame : SubroutineInfo := { funcLabel := 0 }

/-- A one-block function defining `k` temps (no branches, nothing live
out). With `k = 16` the allocation order reaches the first callee-saved
register `S1`; with `k = 1` only `T0` is touched. -/
def cfgStraight (k : Nat) : CFGData :=
  { nodes := [{ id := 0, kind := .continuous, locs := (List.range k).map mkDefLoc }] }

/-- `SubroutineInfo` with no parameters. -/
def infoNone : SubroutineInfo := { funcLabel := 0 }

/-- `SubroutineInfo` of a one-parameter function (argument temp 0). -/
def infoOneArg : SubroutineInfo := { funcLabel := 0, args := [0] }

/-- A block whose single temp is live out, exercising the block-exit
store. -/
def bbLiveOut : BasicBlock :=
  { id := 0, kind := .continuous, locs := [mkDefLoc 0, mkDefLoc 1], liveOut := [0, 1] }

/-- An empty fallthrough block. -/
def bbEmpty : BasicBlock := { id := 0, kind := .continuous }

/-- A register table in which the callee-saved register `S1` (id 9) is
already marked used, as the long-lived table leaves it after an earlier
function bound it. -/
def usedSeed : AllocState :=
  { bindings := [],
    regs := fun r => if r = 9 then { occupied := false, temp := 0, used := true } else {} }

/-- A concrete allocator state for exercising the call convention: temp 7
bound to the caller-saved register `T1` (id 6). -/
def callSeedState : AllocState :=
  { bindings := [(7, 6)],
    regs := fun r => if r = 6 then { occupied := true, temp := 7, used := true } else {} }

/-- A concrete emitter whose spill area already holds slots for temps 7
and 3. -/
def callSeedEmitter : SubEmitter :=
  { nextLocalOffset := 60, offsets := [(7, 52), (3, 56)], buf := [] }

/-- A concrete `CALL` instruction taking temp 3 as its one argument and
writing its result to temp 9. -/
def callSeedInstr : MInstr :=
  { kind := .call, dsts := [.temp 9], srcs := [.temp 3] }

/-! ## Verification predicates -/

/-- The base of the spill area: the region reserved for all callee-saved
register slots, the saved return address and the saved frame pointer
(`4 * len(Riscv.CalleeSaved) + 8 = 52`). -/
def slotBase : Nat := 4 * calleeSaveIds.length + 8

/-- Invariant of the spill-slot bookkeeping of a `RiscvSubroutineEmitter`:
the next free offset always sits exactly past the assigned slots, the
`i`-th assigned slot is at `slotBase + 4 * i`, and no temp index has two
entries. -/
def EmitterInv (e : SubEmitter) : Prop :=
  e.nextLocalOffset = slotBase + 4 * e.offsets.length ∧
  (∀ i, i < e.offsets.length → (e.offsets.getD i (0, 0)).2 = slotBase + 4 * i) ∧
  (e.offsets.map Prod.fst).Nodup

/-- `e'` extends `e`: the buffer has only grown at the end and every
already-assigned stack slot is unchanged. -/
def Extends (e e' : SubEmitter) : Prop :=
  (∃ l, e'.buf = e.buf ++ l) ∧
  (∀ k v, dictLookup e.offsets k = some v → dictLookup e'.offsets k = some v)

/-- Consistency of the allocator state: every binding points to an
allocatable register that is occupied by exactly that temp, and every
occupied allocatable register is the target of its occupant's binding. -/
def WFState (s : AllocState) : Prop :=
  (∀ p ∈ s.bindings, p.2 ∈ allocatableIds ∧
      (getReg s p.2).occupied = true ∧ (getReg s p.2).temp = p.1) ∧
  (∀ r ∈ allocatableIds, (getReg s r).occupied = true →
      dictLookup s.bindings (getReg s r).temp = some r)

/-- The caller-saved registers occupied in a state, in the order
`Riscv.CallerSaved` in which the call-site spill loop visits them. -/
def occupiedCallerIds (s : AllocState) : List Nat :=
  callerSaveIds.filter (fun r => (getReg s r).occupied)

/-- A node is marked in a visited list. -/
def Marked (vis : List Bool) (i : Nat) : Prop := vis.getD i false = true

/-- Count of unvisited entries. -/
def cntF (vis : List Bool) : Nat := vis.countP (fun b => !b)

/-- All edges out of marked nodes lead to marked nodes, up to the excused
pairs `S`. -/
def ClosedExc (edges : List (Nat × Nat)) (vis : List Bool) (S : Nat → Nat → Prop) : Prop :=
  ∀ w v, Marked vis w → v ∈ getSucc edges w → Marked vis v ∨ S w v

/-- The offset that `emitStoreToStack` stores to for temp `tIdx`. -/
def storedOff (e : SubEmitter) (tIdx : Nat) : Nat :=
  (dictLookup e.offsets tIdx).getD e.nextLocalOffset

/-- Monotonicity of the `used` flags between two allocator states. -/
def usedLe (s s' : AllocState) : Prop :=
  ∀ r, (getReg s r).used = true → (getReg s' r).used = true

/-- The joint preservation property of one allocator step: the emitter only
appends and keeps assigned slots, the slot invariant is preserved, and
`used` flags are never cleared. -/
def AllocStep (s : AllocState) (e : SubEmitter) (s' : AllocState) (e' : SubEmitter) : Prop :=
  Extends e e' ∧ (EmitterInv e → EmitterInv e') ∧ usedLe s s'

/-! ## Helper lemmas: dictionaries -/

theorem dictLookup_eq_none (m : List (Nat × Nat)) (k : Nat) :
    dictLookup m k = none ↔ k ∉ m.map Prod.fst := by
  induction m with
  | nil => simp [dictLookup]
  | cons p rest ih =>
      by_cases h : p.1 = k
      · simp [dictLookup, h]
      · simp [dictLookup, h, ih, Ne.symm h]

theorem dictLookup_mem {m : List (Nat × Nat)} {k v : Nat}
    (h : dictLookup m k = some v) : (k, v) ∈ m := by
  induction m with
  | nil => simp [dictLookup] at h
  | cons p rest ih =>
      by_cases hp : p.1 = k
      · simp [dictLookup, hp] at h
        subst hp; subst h
        simp
      · simp [dictLookup, hp] at h
        exact List.mem_cons_of_mem _ (ih h)

theorem dictLookup_append_some {m l : List (Nat × Nat)} {k v : Nat}
    (h : dictLookup m k = some v) : dictLookup (m ++ l) k = some v := by
  induction m with
  | nil => simp [dictLookup] at h
  | cons p rest ih =>
      by_cases hp : p.1 = k
      · simpa [dictLookup, hp] using h
      · simp [dictLookup, hp] at h ⊢
        exact ih h

theorem dictLookup_append_none {m l : List (Nat × Nat)} {k : Nat}
    (h : dictLookup m k = none) : dictLookup (m ++ l) k = dictLookup l k := by
  induction m with
  | nil => simp
  | cons p rest ih =>
      by_cases hp : p.1 = k
      · simp [dictLookup, hp] at h
      · simp [dictLookup, hp] at h ⊢
        exact ih h

theorem dictLookup_insert_self (m : List (Nat × Nat)) (k v : Nat) :
    dictLookup (dictInsert m k v) k = some v := by
  induction m with
  | nil => simp [dictInsert, dictLookup]
  | cons p rest ih =>
      by_cases hp : p.1 = k
      · simp [dictInsert, hp, dictLookup]
      · simp [dictInsert, hp, dictLookup, ih]

theorem dictLookup_insert_ne (m : List (Nat × Nat)) {k k' : Nat} (v : Nat)
    (h : k' ≠ k) : dictLookup (dictInsert m k v) k' = dictLookup m k' := by
  induction m with
  | nil => simp [dictInsert, dictLookup, Ne.symm h]
  | cons p rest ih =>
      by_cases hp : p.1 = k
      · simp [dictInsert, hp, dictLookup, Ne.symm h]
      · simp [dictInsert, hp, dictLookup, ih]

theorem dictLookup_erase_ne (m : List (Nat × Nat)) {k k' : Nat}
    (h : k' ≠ k) : dictLookup (dictErase m k) k' = dictLookup m k' := by
  induction m with
  | nil => simp [dictErase]
  | cons p rest ih =>
      by_cases hp : p.1 = k
      · simp [dictErase, hp, dictLookup, Ne.symm h]
      · simp [dictErase, hp, dictLookup, ih]

theorem getD_append_lt {α : Type} (l₁ l₂ : List α) (i : Nat) (d : α)
    (h : i < l₁.length) : (l₁ ++ l₂).getD i d = l₁.getD i d := by
  induction l₁ generalizing i with
  | nil => simp at h
  | cons a l ih =>
      cases i with
      | zero => rfl
      | succ j => simpa using ih j (by simpa using h)

theorem getD_append_len {α : Type} (l : List α) (a : α) (d : α) :
    (l ++ [a]).getD l.length d = a := by
  induction l with
  | nil => rfl
  | cons b l ih => simpa using ih

/-! ## Helper lemmas: `Except` -/

theorem bind_ok {γ α β : Type} {x : Except γ α} {f : α → Except γ β} {b : β}
    (h : x.bind f = .ok b) : ∃ a, x = .ok a ∧ f a = .ok b := by
  cases x with
  | error g => simp [Except.bind] at h
  | ok a => exact ⟨a, rfl, h⟩

theorem okBind {γ α β : Type} (a : α) (f : α → Except γ β) :
    (Except.ok a >>= f) = f a := rfl

/-! ## Helper lemmas: emitter operations -/

theorem emitStoreIdx_buf (e : SubEmitter) (rId tIdx : Nat) :
    (emitStoreIdx e rId tIdx).buf = e.buf ++ [.storeW rId (storedOff e tIdx)] := by
  unfold emitStoreIdx storedOff
  cases h : dictLookup e.offsets tIdx <;> simp [h]

theorem emitStoreIdx_lookup_self (e : SubEmitter) (rId tIdx : Nat) :
    dictLookup (emitStoreIdx e rId tIdx).offsets tIdx = some (storedOff e tIdx) := by
  unfold emitStoreIdx storedOff
  cases h : dictLookup e.offsets tIdx with
  | none => simp [h, dictLookup_append_none h, dictLookup]
  | some off => simpa [h] using h

theorem emitStoreIdx_lookup_mono (e : SubEmitter) (rId tIdx : Nat) {k v : Nat}
    (h : dictLookup e.offsets k = some v) :
    dictLookup (emitStoreIdx e rId tIdx).offsets k = some v := by
  unfold emitStoreIdx
  cases ht : dictLookup e.offsets tIdx <;> simp [ht, dictLookup_append_some h, h]

theorem extends_refl (e : SubEmitter) : Extends e e :=
  ⟨⟨[], by simp⟩, fun _ _ h => h⟩

theorem extends_trans {e₁ e₂ e₃ : SubEmitter}
    (h₁ : Extends e₁ e₂) (h₂ : Extends e₂ e₃) : Extends e₁ e₃ := by
  obtain ⟨⟨l₁, hb₁⟩, ho₁⟩ := h₁
  obtain ⟨⟨l₂, hb₂⟩, ho₂⟩ := h₂
  exact ⟨⟨l₁ ++ l₂, by simp [hb₂, hb₁]⟩, fun k v h => ho₂ k v (ho₁ k v h)⟩

theorem extends_emitStoreIdx (e : SubEmitter) (rId tIdx : Nat) :
    Extends e (emitStoreIdx e rId tIdx) :=
  ⟨⟨_, emitStoreIdx_buf e rId tIdx⟩, fun _ _ h => emitStoreIdx_lookup_mono e rId tIdx h⟩

theorem emitLoadFromStack_ok {e e' : SubEmitter} {dstR tIdx : Nat}
    (h : emitLoadFromStack e dstR tIdx = .ok e') :
    ∃ off, dictLookup e.offsets tIdx = some off ∧
      e' = { e with buf := e.buf ++ [.loadW dstR off] } := by
  unfold emitLoadFromStack at h
  cases ho : dictLookup e.offsets tIdx with
  | none => simp [ho] at h
  | some off =>
      simp [ho] at h
      exact ⟨off, rfl, h.symm⟩

theorem emitLoadFromStack_error {e e' : SubEmitter} {dstR tIdx : Nat}
    (h : emitLoadFromStack e dstR tIdx = .error e') :
    e' = e ∧ dictLookup e.offsets tIdx = none := by
  unfold emitLoadFromStack at h
  cases ho : dictLookup e.offsets tIdx with
  | none => simp [ho] at h; exact ⟨h.symm, rfl⟩
  | some off => simp [ho] at h

theorem extends_load_ok {e e' : SubEmitter} {dstR tIdx : Nat}
    (h : emitLoadFromStack e dstR tIdx = .ok e') : Extends e e' := by
  obtain ⟨off, _, he⟩ := emitLoadFromStack_ok h
  exact ⟨⟨[EmitItem.loadW dstR off], by simp [he]⟩, fun k v hk => by simp [he, hk]⟩

theorem extends_emitAsm (e : SubEmitter) (i : MInstr) (d sr : List Nat) :
    Extends e (emitAsm e i d sr) :=
  ⟨⟨_, rfl⟩, fun _ _ h => h⟩

theorem extends_emitLabel (e : SubEmitter) (l : Nat) :
    Extends e (emitLabel e l) :=
  ⟨⟨_, rfl⟩, fun _ _ h => h⟩

theorem emitterInv_init : EmitterInv {} := by
  refine ⟨rfl, ?_, ?_⟩ <;> simp [SubEmitter.offsets, slotBase]

theorem emitterInv_emitStoreIdx {e : SubEmitter} (h : EmitterInv e)
    (rId tIdx : Nat) : EmitterInv (emitStoreIdx e rId tIdx) := by
  obtain ⟨hn, hv, hd⟩ := h
  unfold emitStoreIdx
  cases ht : dictLookup e.offsets tIdx with
  | some off => exact ⟨hn, hv, hd⟩
  | none =>
      refine ⟨?_, ?_, ?_⟩
      · simp [hn, Nat.mul_add, Nat.add_assoc]
      · intro i hi
        simp at hi
        rcases Nat.lt_or_ge i e.offsets.length with hlt | hge
        · rw [getD_append_lt _ _ _ _ hlt]; exact hv i hlt
        · have : i = e.offsets.length := Nat.le_antisymm (by omega) hge
          subst this
          rw [getD_append_len]
          simp [hn]
      · rw [List.map_append]
        simp only [List.map_cons, List.map_nil]
        rw [List.nodup_append]
        refine ⟨hd, List.nodup_singleton _, ?_⟩
        intro a ha hb
        simp at hb
        rw [hb] at ha
        exact (dictLookup_eq_none e.offsets tIdx).mp ht ha

theorem emitterInv_applyOp {e : SubEmitter} (h : EmitterInv e) (op : EmitOp) :
    EmitterInv (applyOp e op) := by
  cases op with
  | store rId tIdx => exact emitterInv_emitStoreIdx h rId tIdx
  | load rId tIdx =>
      simp only [applyOp]
      cases hl : emitLoadFromStack e rId tIdx with
      | error e' =>
          obtain ⟨he, -⟩ := emitLoadFromStack_error hl
          subst he; exact h
      | ok e' =>
          obtain ⟨off, -, he⟩ := emitLoadFromStack_ok hl
          subst he; exact h
  | asmOp i => exact h
  | labOp l => exact h

theorem emitterInv_runOps (ops : List EmitOp) : EmitterInv (runOps ops) := by
  unfold runOps
  have : ∀ (l : List EmitOp) (e : SubEmitter), EmitterInv e → EmitterInv (l.foldl applyOp e) := by
    intro l
    induction l with
    | nil => intro e h; exact h
    | cons op rest ih => intro e h; exact ih _ (emitterInv_applyOp h op)
  exact this ops {} emitterInv_init

theorem emitterInv_lookup_val {e : SubEmitter} (h : EmitterInv e) {k v : Nat}
    (hk : dictLookup e.offsets k = some v) :
    ∃ i, i < e.offsets.length ∧ e.offsets.getD i (0, 0) = (k, v) ∧ v = slotBase + 4 * i := by
  obtain ⟨hn, hv, hd⟩ := h
  have hm := dictLookup_mem hk
  obtain ⟨i, hi, hget⟩ := List.getElem_of_mem hm
  refine ⟨i, hi, ?_, ?_⟩
  · rw [List.getD_eq_getElem _ _ hi, hget]
  · have := hv i hi
    rw [List.getD_eq_getElem _ _ hi, hget] at this
    exact this

theorem emitterInv_inj {e : SubEmitter} (h : EmitterInv e) {t₁ t₂ off : Nat}
    (h₁ : dictLookup e.offsets t₁ = some off)
    (h₂ : dictLookup e.offsets t₂ = some off) : t₁ = t₂ := by
  obtain ⟨i₁, hi₁, hg₁, hv₁⟩ := emitterInv_lookup_val h h₁
  obtain ⟨i₂, hi₂, hg₂, hv₂⟩ := emitterInv_lookup_val h h₂
  have : i₁ = i₂ := by omega
  subst this
  have := hg₁.symm.trans hg₂
  simpa using congrArg Prod.fst this


/-! ## Claim C6: binary-operation lowering idioms -/

/-- C6: instruction selection lowers each IR binary operation to its fixed
idiom — logical-or to OR then SNEZ; logical-and to SNEZ on the left
operand, subtraction from zero (an all-ones/all-zeros mask), AND with the
right operand, then SNEZ; equality to XOR then SEQZ; inequality to XOR
then SNEZ; signed less-than to a single SLT; signed greater-than to SLT
with operands swapped; less-or-equal and greater-or-equal to SLT with the
operands ordered per the relation followed by SEQZ; and add/sub/mul/div/mod
to the single corresponding machine instruction — all over the same
destination and source temps. -/
theorem c6_visitBinaryIdioms (dst lhs rhs : Operand) :
    visitBinary TacBinaryOp.lor dst lhs rhs
        = [.binary .or dst lhs rhs, .unary .snez dst dst] ∧
    visitBinary TacBinaryOp.land dst lhs rhs
        = [.unary .snez dst lhs, .binary .sub dst zeroReg dst,
           .binary .and dst dst rhs, .unary .snez dst dst] ∧
    visitBinary TacBinaryOp.equ dst lhs rhs
        = [.binary .xor dst lhs rhs, .unary .seqz dst dst] ∧
    visitBinary TacBinaryOp.neq dst lhs rhs
        = [.binary .xor dst lhs rhs, .unary .snez dst dst] ∧
    visitBinary TacBinaryOp.slt dst lhs rhs = [.binary .slt dst lhs rhs] ∧
    visitBinary TacBinaryOp.sgt dst lhs rhs = [.binary .slt dst rhs lhs] ∧
    visitBinary TacBinaryOp.leq dst lhs rhs
        = [.binary .slt dst rhs lhs, .unary .seqz dst dst] ∧
    visitBinary TacBinaryOp.geq dst lhs rhs
        = [.binary .slt dst lhs rhs, .unary .seqz dst dst] ∧
    visitBinary TacBinaryOp.add dst lhs rhs = [.binary .add dst lhs rhs] ∧
    visitBinary TacBinaryOp.sub dst lhs rhs = [.binary .sub dst lhs rhs] ∧
    visitBinary TacBinaryOp.mul dst lhs rhs = [.binary .mul dst lhs rhs] ∧
    visitBinary TacBinaryOp.div dst lhs rhs = [.binary .div dst lhs rhs] ∧
    visitBinary TacBinaryOp.mod dst lhs rhs = [.binary .rem dst lhs rhs] :=
  ⟨rfl, rfl, rfl, rfl, rfl, rfl, rfl, rfl, rfl, rfl, rfl, rfl, rfl⟩

/-! ## Claim C9: load from an unassigned slot -/

/-- C9: `emitLoadFromStack` raises `IllegalArgumentException` if and only if
the requested temp index has no assigned stack offset, appends nothing to
the buffer in the error case (the state carried by the error is exactly
the input state), and otherwise appends exactly one native load from the
temp's recorded offset. -/
theorem c9_loadOnlyFromAssignedSlot (e : SubEmitter) (dstR tIdx : Nat) :
    (dictLookup e.offsets tIdx = none →
        emitLoadFromStack e dstR tIdx = .error e) ∧
    (∀ e', emitLoadFromStack e dstR tIdx = .error e' →
        dictLookup e.offsets tIdx = none ∧ e' = e ∧ e'.buf = e.buf) ∧
    (∀ off, dictLookup e.offsets tIdx = some off →
        emitLoadFromStack e dstR tIdx
          = .ok { e with buf := e.buf ++ [.loadW dstR off] }) := by
  refine ⟨?_, ?_, ?_⟩
  · intro h; unfold emitLoadFromStack; simp [h]
  · intro e' h
    obtain ⟨he, hn⟩ := emitLoadFromStack_error h
    exact ⟨hn, he, by rw [he]⟩
  · intro off h; unfold emitLoadFromStack; simp [h]

/-- Witness for C9 at concrete emitter states: a load of an unstored temp
errors with the state unchanged, a load of a stored temp appends one load
from the recorded offset. -/
theorem c9_loadOnlyFromAssignedSlot_witness :
    emitLoadFromStack ⟨52, [], []⟩ 5 0 = .error ⟨52, [], []⟩ ∧
    emitLoadFromStack ⟨56, [(3, 52)], []⟩ 5 3
      = .ok ⟨56, [(3, 52)], [.loadW 5 52]⟩ :=
  ⟨(c9_loadOnlyFromAssignedSlot ⟨52, [], []⟩ 5 0).1 (by decide),
   (c9_loadOnlyFromAssignedSlot ⟨56, [(3, 52)], []⟩ 5 3).2.2 52 (by decide)⟩

/-! ## Claim C8: monotonic, injective stack-slot assignment -/

/-- C8: in any emitter state reachable from a fresh
`RiscvSubroutineEmitter`, the first `emitStoreToStack` for a given temp
index assigns it the current next-free offset (seeded at
`4 * len(CalleeSaved) + 8`, past the callee-saved region and the saved
FP/RA slots) and advances the counter by one word; a later store or load
of that temp reuses exactly the recorded offset; the next-free counter
always sits exactly past the assigned slots; and no two distinct temps
share an offset. -/
theorem c8_stackSlotAssignment (ops : List EmitOp) (rId tIdx : Nat) :
    (dictLookup (runOps ops).offsets tIdx = none →
        (emitStoreIdx (runOps ops) rId tIdx).offsets
            = (runOps ops).offsets ++ [(tIdx, (runOps ops).nextLocalOffset)] ∧
        (emitStoreIdx (runOps ops) rId tIdx).nextLocalOffset
            = (runOps ops).nextLocalOffset + 4 ∧
        (emitStoreIdx (runOps ops) rId tIdx).buf
            = (runOps ops).buf ++ [.storeW rId (runOps ops).nextLocalOffset]) ∧
    (∀ off, dictLookup (runOps ops).offsets tIdx = some off →
        emitStoreIdx (runOps ops) rId tIdx
            = { runOps ops with buf := (runOps ops).buf ++ [.storeW rId off] } ∧
        emitLoadFromStack (runOps ops) rId tIdx
            = .ok { runOps ops with buf := (runOps ops).buf ++ [.loadW rId off] }) ∧
    (runOps ops).nextLocalOffset = slotBase + 4 * (runOps ops).offsets.length ∧
    slotBase = 4 * calleeSaveIds.length + 8 ∧
    (∀ t₁ t₂ off, dictLookup (runOps ops).offsets t₁ = some off →
        dictLookup (runOps ops).offsets t₂ = some off → t₁ = t₂) := by
  have hinv := emitterInv_runOps ops
  refine ⟨?_, ?_, hinv.1, rfl, fun t₁ t₂ off h₁ h₂ => emitterInv_inj hinv h₁ h₂⟩
  · intro h
    unfold emitStoreIdx
    simp [h]
  · intro off h
    constructor
    · unfold emitStoreIdx; simp [h]
    · unfold emitLoadFromStack; simp [h]

/-- Witness for C8 at a concrete reachable state (one prior store of temp
5): a first store of temp 6 takes the next offset and bumps the counter, a
repeated store of temp 5 reuses offset 52. -/
theorem c8_stackSlotAssignment_witness :
    dictLookup (runOps [.store 0 5]).offsets 6 = none ∧
    (emitStoreIdx (runOps [.store 0 5]) 1 6).offsets
        = (runOps [.store 0 5]).offsets ++ [(6, (runOps [.store 0 5]).nextLocalOffset)] ∧
    (emitStoreIdx (runOps [.store 0 5]) 1 6).nextLocalOffset
        = (runOps [.store 0 5]).nextLocalOffset + 4 ∧
    dictLookup (runOps [.store 0 5]).offsets 5 = some 52 ∧
    emitStoreIdx (runOps [.store 0 5]) 2 5
        = { runOps [.store 0 5] with buf := (runOps [.store 0 5]).buf ++ [.storeW 2 52] } :=
  ⟨by decide,
   ((c8_stackSlotAssignment [.store 0 5] 1 6).1 (by decide)).1,
   ((c8_stackSlotAssignment [.store 0 5] 1 6).1 (by decide)).2.1,
   by decide,
   ((c8_stackSlotAssignment [.store 0 5] 2 5).2.1 52 (by decide)).1⟩

/-! ## Claim C10: 12-bit immediate assertions on frame accesses -/

theorem renderAll_none_of_mem {l : List (Option String)} (h : none ∈ l) :
    renderAll l = none := by
  induction l with
  | nil => simp at h
  | cons o rest ih =>
      cases o with
      | none => rfl
      | some s =>
          have hr : none ∈ rest := by
            rcases List.mem_cons.mp h with h' | h'
            · simp at h'
            · exact h'
          simp [renderAll, ih hr]

/-- C10: rendering `SPAdd`, `NativeStoreWord` or `NativeLoadWord` succeeds
exactly when the byte offset lies in the signed 12-bit range
`[-2048, 2047]`; consequently `emitFunc`'s printed output fails with an
assertion error whenever the frame size exceeds 2047 (the epilogue
`SPAdd(nextLocalOffset)` is out of range) or any buffered spill access has
an offset beyond 2047; in a reachable emitter state this happens as soon
as 499 distinct temps have been spilled past the fixed 52-byte reserved
region. -/
theorem c10_immediateRangeAssertions :
    (∀ off : Int, (spAddStr off).isSome = true ↔ -2048 ≤ off ∧ off ≤ 2047) ∧
    (∀ src base : Nat, ∀ off : Int,
        (nativeStoreWordStr src base off).isSome = true ↔ -2048 ≤ off ∧ off ≤ 2047) ∧
    (∀ dst base : Nat, ∀ off : Int,
        (nativeLoadWordStr dst base off).isSome = true ↔ -2048 ≤ off ∧ off ≤ 2047) ∧
    (∀ used : Nat → Bool, ∀ e : SubEmitter,
        2047 < e.nextLocalOffset → renderFunc used e = none) ∧
    (∀ used : Nat → Bool, ∀ e : SubEmitter, ∀ r off : Nat,
        EmitItem.storeW r off ∈ e.buf → 2047 < off → renderFunc used e = none) ∧
    (∀ ops : List EmitOp, ∀ used : Nat → Bool,
        499 ≤ (runOps ops).offsets.length → renderFunc used (runOps ops) = none) := by
  have hsp : ∀ off : Int, (spAddStr off).isSome = true ↔ -2048 ≤ off ∧ off ≤ 2047 := by
    intro off
    by_cases h : -2048 ≤ off ∧ off ≤ 2047 <;> simp [spAddStr, h]
  have hframe : ∀ used : Nat → Bool, ∀ e : SubEmitter,
      2047 < e.nextLocalOffset → renderFunc used e = none := by
    intro used e h
    have hel : spAddStr ((e.nextLocalOffset : Nat) : Int) = none := by
      simp only [spAddStr, ite_eq_right_iff]
      intro hc
      exfalso
      have : (e.nextLocalOffset : Int) ≤ 2047 := hc.2
      omega
    unfold renderFunc
    apply renderAll_none_of_mem
    simp [hel]
  refine ⟨hsp, ?_, ?_, hframe, ?_, ?_⟩
  · intro src base off
    by_cases h : -2048 ≤ off ∧ off ≤ 2047 <;> simp [nativeStoreWordStr, h]
  · intro dst base off
    by_cases h : -2048 ≤ off ∧ off ≤ 2047 <;> simp [nativeLoadWordStr, h]
  · intro used e r off hmem h
    have hel : renderItem (.storeW r off) = none := by
      simp only [renderItem, nativeStoreWordStr, ite_eq_right_iff]
      intro hc
      exfalso
      have : (off : Int) ≤ 2047 := hc.2
      omega
    unfold renderFunc
    apply renderAll_none_of_mem
    have : (none : Option String) ∈ e.buf.map renderItem := by
      rw [← hel]
      exact List.mem_map_of_mem renderItem hmem
    simp only [List.mem_append]
    tauto
  · intro ops used h
    have hinv := emitterInv_runOps ops
    refine hframe used (runOps ops) ?_
    have h1 := hinv.1
    have h2 : slotBase = 52 := rfl
    omega

/-- Witness for C10: a frame of 2048 bytes (499 spilled temps past the
52-byte reserved region) makes `emitFunc`'s rendering fail, and the
epilogue stack adjustment for it renders as `none`. -/
theorem c10_immediateRangeAssertions_witness :
    renderFunc (fun _ => false) ⟨2048, [], []⟩ = none ∧
    (spAddStr 2048).isSome = false :=
  ⟨c10_immediateRangeAssertions.2.2.2.1 (fun _ => false) ⟨2048, [], []⟩ (by decide),
   by decide⟩


/-! ## Claim C5: CFG reachability -/

theorem mem_getSucc (edges : List (Nat × Nat)) (u v : Nat) :
    v ∈ getSucc edges u ↔ (u, v) ∈ edges := by
  unfold getSucc
  simp only [List.mem_map, List.mem_filter, decide_eq_true_eq]
  constructor
  · rintro ⟨p, ⟨hp, h1⟩, h2⟩
    have : p = (u, v) := by
      cases p
      simp at h1 h2
      simp [h1, h2]
    rwa [this] at hp
  · intro h
    exact ⟨(u, v), ⟨h, rfl⟩, rfl⟩

theorem set_oob {α : Type} (l : List α) (n : Nat) (a : α) (h : l.length ≤ n) :
    l.set n a = l := by
  induction l generalizing n with
  | nil => rfl
  | cons b t ih =>
      cases n with
      | zero => simp at h
      | succ m => simp [List.set, ih m (by simpa using h)]

theorem getD_set_self (l : List Bool) (u : Nat) (b : Bool) (h : u < l.length) :
    (l.set u b).getD u false = b := by
  induction l generalizing u with
  | nil => simp at h
  | cons a t ih =>
      cases u with
      | zero => rfl
      | succ m => simpa using ih m (by simpa using h)

theorem getD_set_other (l : List Bool) {u i : Nat} (b : Bool) (h : u ≠ i) :
    (l.set u b).getD i false = l.getD i false := by
  induction l generalizing u i with
  | nil => rfl
  | cons a t ih =>
      cases u with
      | zero =>
          cases i with
          | zero => exact absurd rfl h
          | succ j => rfl
      | succ m =>
          cases i with
          | zero => rfl
          | succ j => exact ih (fun hc => h (by rw [hc]))

theorem marked_set (vis : List Bool) (u i : Nat) (h : Marked vis i) :
    Marked (vis.set u true) i := by
  by_cases hu : u = i
  · subst hu
    by_cases hl : u < vis.length
    · unfold Marked
      rw [getD_set_self _ _ _ hl]
    · unfold Marked at h ⊢
      rwa [set_oob _ _ _ (Nat.le_of_not_lt hl)]
  · unfold Marked at h ⊢
    rwa [getD_set_other _ _ hu]

theorem marked_set_self (vis : List Bool) (u : Nat) (h : u < vis.length) :
    Marked (vis.set u true) u := by
  unfold Marked
  rw [getD_set_self _ _ _ h]

theorem marked_set_cases {vis : List Bool} {u i : Nat}
    (h : Marked (vis.set u true) i) : Marked vis i ∨ i = u := by
  by_cases hu : u = i
  · exact Or.inr hu.symm
  · unfold Marked at h
    rw [getD_set_other _ _ hu] at h
    exact Or.inl h

theorem cntF_set_true (vis : List Bool) (u : Nat) (hu : u < vis.length)
    (hf : vis.getD u false = false) : cntF (vis.set u true) + 1 = cntF vis := by
  induction vis generalizing u with
  | nil => simp at hu
  | cons a t ih =>
      cases u with
      | zero =>
          have : a = false := hf
          subst this
          simp [cntF, List.countP_cons]
      | succ m =>
          have := ih m (by simpa using hu) (by simpa using hf)
          simp only [List.set, cntF, List.countP_cons] at this ⊢
          omega

theorem cntF_le_of_marked_le (v : List Bool) :
    ∀ w : List Bool, w.length = v.length →
      (∀ i, Marked v i → Marked w i) → cntF w ≤ cntF v := by
  induction v with
  | nil =>
      intro w hlen _
      cases w with
      | nil => exact le_refl _
      | cons b t => simp at hlen
  | cons a t ih =>
      intro w hlen hm
      cases w with
      | nil => simp at hlen
      | cons b s =>
          have htail : ∀ i, Marked t i → Marked s i := fun i h => hm (i + 1) h
          have h0 : a = true → b = true := fun ha => hm 0 (by simpa [Marked] using ha)
          have hs := ih s (by simpa using hlen) htail
          cases a with
          | true =>
              rw [h0 rfl]
              simpa [cntF, List.countP_cons] using hs
          | false =>
              cases b <;> simp [cntF, List.countP_cons] at hs ⊢ <;> omega

theorem cntF_replicate (n : Nat) : cntF (List.replicate n false) = n := by
  induction n with
  | zero => rfl
  | succ m ih => simp [List.replicate, cntF, List.countP_cons] at ih ⊢; omega

theorem not_marked_replicate (n i : Nat) : ¬ Marked (List.replicate n false) i := by
  intro h
  rw [Marked] at h
  induction n generalizing i with
  | zero => simp [List.getD] at h
  | succ m ih =>
      cases i with
      | zero => simp [List.replicate, List.getD] at h
      | succ j => exact ih j (by simpa [List.replicate] using h)

theorem dfs_length (edges : List (Nat × Nat)) :
    ∀ (fuel : Nat) (vis : List Bool) (u : Nat),
      (dfs edges fuel vis u).length = vis.length := by
  intro fuel
  induction fuel with
  | zero => intro vis u; rfl
  | succ f ih =>
      intro vis u
      by_cases h : vis.getD u false
      · simp only [dfs]
        rw [if_pos h]
      · simp only [dfs]
        rw [if_neg h]
        have aux : ∀ (L : List Nat) (w : List Bool),
            (L.foldl (dfs edges f) w).length = w.length := by
          intro L
          induction L with
          | nil => intro w; rfl
          | cons a L ihL => intro w; rw [List.foldl_cons, ihL, ih]
        rw [aux, List.length_set]

theorem dfs_marked_mono (edges : List (Nat × Nat)) :
    ∀ (fuel : Nat) (vis : List Bool) (u i : Nat),
      Marked vis i → Marked (dfs edges fuel vis u) i := by
  intro fuel
  induction fuel with
  | zero => intro vis u i h; exact h
  | succ f ih =>
      intro vis u i h
      by_cases hg : vis.getD u false
      · simp only [dfs]
        rw [if_pos hg]
        exact h
      · simp only [dfs]
        rw [if_neg hg]
        have aux : ∀ (L : List Nat) (w : List Bool),
            Marked w i → Marked (L.foldl (dfs edges f) w) i := by
          intro L
          induction L with
          | nil => intro w hw; exact hw
          | cons a L ihL => intro w hw; exact ihL _ (ih w a i hw)
        exact aux _ _ (marked_set vis u i h)

theorem dfs_cntF_le (edges : List (Nat × Nat)) (fuel : Nat) (vis : List Bool) (u : Nat) :
    cntF (dfs edges fuel vis u) ≤ cntF vis :=
  cntF_le_of_marked_le vis (dfs edges fuel vis u)
    (dfs_length edges fuel vis u) (fun i h => dfs_marked_mono edges fuel vis u i h)

theorem dfs_sound (edges : List (Nat × Nat)) :
    ∀ (fuel : Nat) (vis : List Bool) (u i : Nat),
      Marked (dfs edges fuel vis u) i →
      Marked vis i ∨ Relation.ReflTransGen (EdgeStep edges) u i := by
  intro fuel
  induction fuel with
  | zero => intro vis u i h; exact Or.inl h
  | succ f ih =>
      intro vis u i h
      by_cases hg : vis.getD u false
      · simp only [dfs] at h
        rw [if_pos hg] at h
        exact Or.inl h
      · simp only [dfs] at h
        rw [if_neg hg] at h
        have aux : ∀ (L : List Nat) (w : List Bool),
            (∀ v ∈ L, Relation.ReflTransGen (EdgeStep edges) u v) →
            Marked (L.foldl (dfs edges f) w) i →
            Marked w i ∨ Relation.ReflTransGen (EdgeStep edges) u i := by
          intro L
          induction L with
          | nil => intro w _ hw; exact Or.inl hw
          | cons a L ihL =>
              intro w hL hw
              rcases ihL (dfs edges f w a) (fun v hv => hL v (List.mem_cons_of_mem _ hv)) hw with h' | h'
              · rcases ih w a i h' with h'' | h''
                · exact Or.inl h''
                · exact Or.inr ((hL a (List.mem_cons_self a L)).trans h'')
              · exact Or.inr h'
        rcases aux _ _ (fun v hv => Relation.ReflTransGen.single ((mem_getSucc edges u v).mp hv)) h with h' | h'
        · rcases marked_set_cases h' with h'' | h''
          · exact Or.inl h''
          · subst h''
            exact Or.inr Relation.ReflTransGen.refl
        · exact Or.inr h'

theorem dfs_closed (edges : List (Nat × Nat)) (n : Nat)
    (hval : ∀ p ∈ edges, p.2 < n) :
    ∀ (fuel : Nat) (vis : List Bool) (u : Nat) (S : Nat → Nat → Prop),
      vis.length = n → cntF vis < fuel → u < n →
      ClosedExc edges vis S →
      Marked (dfs edges fuel vis u) u ∧ ClosedExc edges (dfs edges fuel vis u) S := by
  intro fuel
  induction fuel with
  | zero =>
      intro vis u S _ hf
      exact absurd hf (Nat.not_lt_zero _)
  | succ f ih =>
      intro vis u S hlen hf hu hC
      by_cases hg : vis.getD u false
      · simp only [dfs]
        rw [if_pos hg]
        exact ⟨hg, hC⟩
      · simp only [dfs]
        rw [if_neg hg]
        have fold : ∀ (L : List Nat) (w : List Bool) (S' : Nat → Nat → Prop),
            (∀ v ∈ L, v < n) → w.length = n → cntF w < f →
            ClosedExc edges w (fun a b => S' a b ∨ b ∈ L) →
            (∀ i, Marked w i → Marked (L.foldl (dfs edges f) w) i) ∧
            ClosedExc edges (L.foldl (dfs edges f) w) S' := by
          intro L
          induction L with
          | nil =>
              intro w S' _ _ _ hCw
              refine ⟨fun i h => h, ?_⟩
              intro a b ha hb
              rcases hCw a b ha hb with h | h
              · exact Or.inl h
              · rcases h with h | h
                · exact Or.inr h
                · simp at h
          | cons a L ihL =>
              intro w S' hL hwlen hwf hCw
              have ha : a < n := hL a (List.mem_cons_self a L)
              have hmain := ih w a (fun x y => S' x y ∨ y ∈ a :: L) hwlen hwf ha hCw
              have hr1len : (dfs edges f w a).length = n := by
                rw [dfs_length]; exact hwlen
              have hr1cnt : cntF (dfs edges f w a) ≤ cntF w := dfs_cntF_le edges f w a
              have hC2 : ClosedExc edges (dfs edges f w a) (fun x y => S' x y ∨ y ∈ L) := by
                intro x y hx hy
                rcases hmain.2 x y hx hy with h | h
                · exact Or.inl h
                · rcases h with h | h
                  · exact Or.inr (Or.inl h)
                  · rcases List.mem_cons.mp h with h | h
                    · rw [h]; exact Or.inl hmain.1
                    · exact Or.inr (Or.inr h)
              have hrest := ihL (dfs edges f w a) S'
                (fun v hv => hL v (List.mem_cons_of_mem _ hv)) hr1len
                (Nat.lt_of_le_of_lt hr1cnt hwf) hC2
              rw [List.foldl_cons]
              exact ⟨fun i h => hrest.1 i (dfs_marked_mono edges f w a i h), hrest.2⟩
        have hulen : u < vis.length := by rw [hlen]; exact hu
        have hgf : vis.getD u false = false := by
          cases h : vis.getD u false
          · rfl
          · exact absurd h hg
        have hcnt1 : cntF (vis.set u true) < f := by
          have := cntF_set_true vis u hulen hgf
          omega
        have hC1 : ClosedExc edges (vis.set u true)
            (fun x y => S x y ∨ y ∈ getSucc edges u) := by
          intro x y hx hy
          rcases marked_set_cases hx with h | h
          · rcases hC x y h hy with h' | h'
            · exact Or.inl (marked_set _ _ _ h')
            · exact Or.inr (Or.inl h')
          · subst h
            exact Or.inr (Or.inr hy)
        have hLval : ∀ v ∈ getSucc edges u, v < n :=
          fun v hv => hval (u, v) ((mem_getSucc edges u v).mp hv)
        have hres := fold (getSucc edges u) (vis.set u true) S hLval
          (by rw [List.length_set]; exact hlen) hcnt1 hC1
        exact ⟨hres.1 u (marked_set_self vis u hulen), hres.2⟩

/-- C5: for every CFG constructed from a non-empty node list whose edges
stay inside the node range, `isReachable 0` is `true`, and for every node
id, `isReachable id` holds if and only if the node is reachable from node
0 through the edge relation given at construction. -/
theorem c5_cfgReachability (n : Nat) (edges : List (Nat × Nat))
    (hn : 0 < n) (hval : ∀ p ∈ edges, p.1 < n ∧ p.2 < n) :
    isReachable n edges 0 = true ∧
    (∀ idx, idx < n →
      (isReachable n edges idx = true ↔
        Relation.ReflTransGen (EdgeStep edges) 0 idx)) := by
  have hval2 : ∀ p ∈ edges, p.2 < n := fun p hp => (hval p hp).2
  have hmain := dfs_closed edges n hval2 (n + 1) (List.replicate n false) 0
    (fun _ _ => False) (by simp) (by rw [cntF_replicate]; omega) hn
    (fun w v hw _ => absurd hw (not_marked_replicate n w))
  have hreach : computeReachability n edges
      = dfs edges (n + 1) (List.replicate n false) 0 := rfl
  constructor
  · rw [isReachable, hreach]
    exact hmain.1
  · intro idx hidx
    clear hidx
    constructor
    · intro h
      rw [isReachable, hreach] at h
      rcases dfs_sound edges (n + 1) (List.replicate n false) 0 idx h with h' | h'
      · exact absurd h' (not_marked_replicate n idx)
      · exact h'
    · intro h
      rw [isReachable, hreach]
      induction h with
      | refl => exact hmain.1
      | tail hab hbc ihr =>
          rcases hmain.2 _ _ ihr ((mem_getSucc edges _ _).mpr hbc) with h' | h'
          · exact h'
          · exact h'.elim

/-- Witness for C5 at a concrete CFG (three nodes, edges 0→1 only): node 0
and node 1 are reachable; applying the theorem discharges both
hypotheses. -/
theorem c5_cfgReachability_witness :
    isReachable 3 [(0, 1)] 0 = true ∧
    (isReachable 3 [(0, 1)] 1 = true ↔
      Relation.ReflTransGen (EdgeStep [(0, 1)]) 0 1) :=
  ⟨(c5_cfgReachability 3 [(0, 1)] (by decide) (by decide)).1,
   (c5_cfgReachability 3 [(0, 1)] (by decide) (by decide)).2 1 (by decide)⟩


/-! ## Helper lemmas: allocator state -/

theorem getReg_setReg_self (s : AllocState) (r : Nat) (ri : RegInfo) :
    getReg (setReg s r ri) r = ri := by
  simp [getReg, setReg]

theorem getReg_setReg_ne (s : AllocState) {r r' : Nat} (ri : RegInfo) (h : r' ≠ r) :
    getReg (setReg s r ri) r' = getReg s r' := by
  simp [getReg, setReg, h]

theorem bindTemp_bindings (s : AllocState) (t r : Nat) :
    (bindTemp s t r).bindings = dictInsert s.bindings t r := rfl

theorem getReg_bindTemp_self (s : AllocState) (t r : Nat) :
    getReg (bindTemp s t r) r = { occupied := true, temp := t, used := true } := by
  unfold bindTemp
  exact getReg_setReg_self _ _ _

theorem getReg_bindTemp_ne (s : AllocState) {t r r' : Nat} (h : r' ≠ r) :
    getReg (bindTemp s t r) r' = getReg s r' := by
  unfold bindTemp
  exact getReg_setReg_ne _ _ h

theorem unbindTemp_used (s : AllocState) (t r : Nat) :
    (getReg (unbindTemp s t) r).used = (getReg s r).used := by
  unfold unbindTemp
  cases h : dictLookup s.bindings t with
  | none => rfl
  | some rId =>
      by_cases hr : r = rId
      · subst hr; simp [getReg, setReg]
      · simp [getReg, setReg, hr]

theorem unbindTemp_temp (s : AllocState) (t r : Nat) :
    (getReg (unbindTemp s t) r).temp = (getReg s r).temp := by
  unfold unbindTemp
  cases h : dictLookup s.bindings t with
  | none => rfl
  | some rId =>
      by_cases hr : r = rId
      · subst hr; simp [getReg, setReg]
      · simp [getReg, setReg, hr]

theorem resetOccupied_used (s : AllocState) (r : Nat) :
    (getReg (resetOccupied s) r).used = (getReg s r).used := by
  unfold resetOccupied
  generalize allocatableIds = L
  induction L generalizing s with
  | nil => rfl
  | cons a L ih =>
      rw [List.foldl_cons, ih]
      by_cases h : r = a
      · subst h; rw [getReg_setReg_self]
      · rw [getReg_setReg_ne _ _ h]

theorem usedLe_refl (s : AllocState) : usedLe s s := fun _ h => h

theorem usedLe_trans {s₁ s₂ s₃ : AllocState}
    (h₁ : usedLe s₁ s₂) (h₂ : usedLe s₂ s₃) : usedLe s₁ s₃ :=
  fun r h => h₂ r (h₁ r h)

theorem usedLe_bindTemp (s : AllocState) (t r : Nat) : usedLe s (bindTemp s t r) := by
  intro r' h
  by_cases hr : r' = r
  · subst hr; rw [getReg_bindTemp_self]
  · rwa [getReg_bindTemp_ne _ hr]

theorem usedLe_unbindTemp (s : AllocState) (t : Nat) : usedLe s (unbindTemp s t) := by
  intro r h
  rwa [unbindTemp_used]

theorem usedLe_resetOccupied (s : AllocState) : usedLe s (resetOccupied s) := by
  intro r h
  rwa [resetOccupied_used]

theorem allocStep_refl (s : AllocState) (e : SubEmitter) : AllocStep s e s e :=
  ⟨extends_refl e, fun h => h, usedLe_refl s⟩

theorem allocStep_trans {s₁ s₂ s₃ : AllocState} {e₁ e₂ e₃ : SubEmitter}
    (h₁ : AllocStep s₁ e₁ s₂ e₂) (h₂ : AllocStep s₂ e₂ s₃ e₃) : AllocStep s₁ e₁ s₃ e₃ :=
  ⟨extends_trans h₁.1 h₂.1, fun h => h₂.2.1 (h₁.2.1 h), usedLe_trans h₁.2.2 h₂.2.2⟩

theorem allocStep_state {s s' : AllocState} (e : SubEmitter) (h : usedLe s s') :
    AllocStep s e s' e :=
  ⟨extends_refl e, fun h' => h', h⟩

theorem allocStep_emitter (s : AllocState) {e e' : SubEmitter}
    (h : Extends e e') (hi : EmitterInv e → EmitterInv e') : AllocStep s e s e' :=
  ⟨h, hi, usedLe_refl s⟩

theorem allocStep_emitStoreIdx (s : AllocState) (e : SubEmitter) (rId tIdx : Nat) :
    AllocStep s e s (emitStoreIdx e rId tIdx) :=
  allocStep_emitter s (extends_emitStoreIdx e rId tIdx)
    (fun h => emitterInv_emitStoreIdx h rId tIdx)

theorem allocStep_load_ok {e e' : SubEmitter} (s : AllocState) {dstR tIdx : Nat}
    (h : emitLoadFromStack e dstR tIdx = .ok e') : AllocStep s e s e' := by
  obtain ⟨off, -, he⟩ := emitLoadFromStack_ok h
  subst he
  exact allocStep_emitter s (extends_load_ok h) (fun hi => hi)

theorem ifLoad_ok {e e' : SubEmitter} {isRead : Bool} {dstR tIdx : Nat} (s : AllocState)
    (h : (if isRead then emitLoadFromStack e dstR tIdx else .ok e) = .ok e') :
    AllocStep s e s e' := by
  cases isRead with
  | true => exact allocStep_load_ok s (by simpa using h)
  | false =>
      simp at h
      subst h
      exact allocStep_refl s e

theorem allocTake_inv {s : AllocState} {e : SubEmitter} {tIdx : Nat}
    {isRead : Bool} {r : Nat} {s' : AllocState} {e' : SubEmitter}
    (h : allocTake s e tIdx isRead r = .ok (s', e')) :
    ∃ e₁, (if isRead then emitLoadFromStack e r tIdx else .ok e) = .ok e₁ ∧
      e' = e₁ ∧
      s' = bindTemp
        (if (getReg s r).occupied = true then unbindTemp s (getReg s r).temp else s)
        tIdx r := by
  unfold allocTake at h
  cases isRead with
  | true =>
      rw [if_pos rfl] at h
      obtain ⟨e₁, hld, hjp⟩ := bind_ok h
      simp only [Except.ok.injEq, Prod.mk.injEq] at hjp
      exact ⟨e₁, by rw [if_pos rfl]; exact hld, hjp.2.symm, hjp.1.symm⟩
  | false =>
      rw [if_neg Bool.false_ne_true] at h
      obtain ⟨e₁, hld, hjp⟩ := bind_ok h
      simp only [Except.ok.injEq, Prod.mk.injEq] at hjp
      exact ⟨e₁, by rw [if_neg Bool.false_ne_true]; exact hld, hjp.2.symm, hjp.1.symm⟩

theorem allocTake_step {s : AllocState} {e : SubEmitter} {tIdx : Nat}
    {isRead : Bool} {r : Nat} {s' : AllocState} {e' : SubEmitter}
    (h : allocTake s e tIdx isRead r = .ok (s', e')) : AllocStep s e s' e' := by
  obtain ⟨e₁, hld, he', hs'⟩ := allocTake_inv h
  subst he'
  subst hs'
  refine allocStep_trans (ifLoad_ok s hld) ?_
  by_cases hocc : (getReg s r).occupied = true
  · rw [if_pos hocc]
    exact allocStep_state _ (usedLe_trans (usedLe_unbindTemp _ _) (usedLe_bindTemp _ _ _))
  · rw [if_neg hocc]
    exact allocStep_state _ (usedLe_bindTemp _ _ _)

theorem allocEvict_inv {s : AllocState} {e : SubEmitter} {tIdx : Nat}
    {isRead : Bool} {r : Nat} {s' : AllocState} {e' : SubEmitter}
    (h : allocEvict s e tIdx isRead r = .ok (s', e')) :
    ∃ e₁, (if isRead then emitLoadFromStack (emitStoreIdx e r (getReg s r).temp) r tIdx
            else .ok (emitStoreIdx e r (getReg s r).temp)) = .ok e₁ ∧
      e' = e₁ ∧
      s' = bindTemp (unbindTemp s (getReg s r).temp) tIdx r := by
  unfold allocEvict at h
  cases isRead with
  | true =>
      rw [if_pos rfl] at h
      obtain ⟨e₁, hld, hjp⟩ := bind_ok h
      simp only [Except.ok.injEq, Prod.mk.injEq] at hjp
      exact ⟨e₁, by rw [if_pos rfl]; exact hld, hjp.2.symm, hjp.1.symm⟩
  | false =>
      rw [if_neg Bool.false_ne_true] at h
      obtain ⟨e₁, hld, hjp⟩ := bind_ok h
      simp only [Except.ok.injEq, Prod.mk.injEq] at hjp
      exact ⟨e₁, by rw [if_neg Bool.false_ne_true]; exact hld, hjp.2.symm, hjp.1.symm⟩

theorem allocEvict_step {s : AllocState} {e : SubEmitter} {tIdx : Nat}
    {isRead : Bool} {r : Nat} {s' : AllocState} {e' : SubEmitter}
    (h : allocEvict s e tIdx isRead r = .ok (s', e')) : AllocStep s e s' e' := by
  obtain ⟨e₁, hld, he', hs'⟩ := allocEvict_inv h
  subst he'
  subst hs'
  refine allocStep_trans (allocStep_emitStoreIdx s e r (getReg s r).temp) ?_
  refine allocStep_trans (ifLoad_ok s hld) ?_
  exact allocStep_state _ (usedLe_trans (usedLe_unbindTemp _ _) (usedLe_bindTemp _ _ _))

theorem allocRegFor_step {s : AllocState} {e : SubEmitter} {o : List Nat}
    {tIdx : Nat} {isRead : Bool} {live : List Nat}
    {s' : AllocState} {e' : SubEmitter} {o' : List Nat} {r : Nat}
    (h : allocRegFor s e o tIdx isRead live = .ok (s', e', o', r)) :
    AllocStep s e s' e' := by
  unfold allocRegFor at h
  cases hb : dictLookup s.bindings tIdx with
  | some r0 =>
      simp only [hb, Except.ok.injEq, Prod.mk.injEq] at h
      obtain ⟨hs', he', -, -⟩ := h
      subst hs'
      subst he'
      exact allocStep_refl s e
  | none =>
      simp only [hb] at h
      cases hf : findAvail s live allocatableIds with
      | some r0 =>
          simp only [hf] at h
          obtain ⟨⟨s₁, e₁⟩, hcall, hjp⟩ := bind_ok h
          simp only [Except.ok.injEq, Prod.mk.injEq] at hjp
          obtain ⟨hs', he', -, -⟩ := hjp
          subst hs'
          subst he'
          exact allocTake_step hcall
      | none =>
          simp only [hf] at h
          obtain ⟨⟨s₁, e₁⟩, hcall, hjp⟩ := bind_ok h
          simp only [Except.ok.injEq, Prod.mk.injEq] at hjp
          obtain ⟨hs', he', -, -⟩ := hjp
          subst hs'
          subst he'
          exact allocEvict_step hcall


theorem allocOperands_step :
    ∀ (ops : List Operand) {s : AllocState} {e : SubEmitter} {o : List Nat}
      {isRead : Bool} {live : List Nat}
      {s' : AllocState} {e' : SubEmitter} {o' : List Nat} {regs : List Nat},
      allocOperands s e o isRead live ops = .ok (s', e', o', regs) →
      AllocStep s e s' e' := by
  intro ops
  induction ops with
  | nil =>
      intro s e o isRead live s' e' o' regs h
      simp only [allocOperands, Except.ok.injEq, Prod.mk.injEq] at h
      obtain ⟨hs', he', -, -⟩ := h
      subst hs'
      subst he'
      exact allocStep_refl s e
  | cons op rest ih =>
      intro s e o isRead live s' e' o' regs h
      cases op with
      | reg r =>
          simp only [allocOperands] at h
          obtain ⟨⟨s₁, e₁, o₁, rs₁⟩, hrest, hjp⟩ := bind_ok h
          simp only [Except.ok.injEq, Prod.mk.injEq] at hjp
          obtain ⟨hs', he', -, -⟩ := hjp
          subst hs'
          subst he'
          exact ih hrest
      | temp t =>
          simp only [allocOperands] at h
          obtain ⟨⟨s₁, e₁, o₁, r₁⟩, hone, hrest'⟩ := bind_ok h
          obtain ⟨⟨s₂, e₂, o₂, rs₂⟩, hrest, hjp⟩ := bind_ok hrest'
          simp only [Except.ok.injEq, Prod.mk.injEq] at hjp
          obtain ⟨hs', he', -, -⟩ := hjp
          subst hs'
          subst he'
          exact allocStep_trans (allocRegFor_step hone) (ih hrest)

theorem spillList_step :
    ∀ (L : List Nat) (s : AllocState) (e : SubEmitter),
      AllocStep s e (spillList s e L).1 (spillList s e L).2 := by
  intro L
  induction L with
  | nil => intro s e; exact allocStep_refl s e
  | cons a L ih =>
      intro s e
      refine allocStep_trans ?_ (ih _ _)
      exact ⟨extends_emitStoreIdx _ _ _,
        fun h => emitterInv_emitStoreIdx h _ _, usedLe_unbindTemp _ _⟩

theorem spillCallerSaved_step (s : AllocState) (e : SubEmitter) :
    AllocStep s e (spillCallerSaved s e).1 (spillCallerSaved s e).2 :=
  spillList_step _ s e

theorem bindCallArgs_step :
    ∀ (l : List (Nat × Operand)) {s : AllocState} {e : SubEmitter}
      {s' : AllocState} {e' : SubEmitter},
      bindCallArgs s e l = .ok (s', e') → AllocStep s e s' e' := by
  intro l
  induction l with
  | nil =>
      intro s e s' e' h
      simp only [bindCallArgs, Except.ok.injEq, Prod.mk.injEq] at h
      obtain ⟨hs', he'⟩ := h
      subst hs'
      subst he'
      exact allocStep_refl s e
  | cons p rest ih =>
      intro s e s' e' h
      simp only [bindCallArgs] at h
      by_cases hidx : p.1 < argRegIds.length
      · rw [if_pos hidx] at h
        cases hld : emitLoadFromStack e (argRegIds.getD p.1 0) p.2.index with
        | error e₁ => rw [hld] at h; simp at h
        | ok e₁ =>
            rw [hld] at h
            refine allocStep_trans ?_ (ih h)
            refine allocStep_trans ?_ (allocStep_load_ok _ hld)
            by_cases hocc : (getReg s (argRegIds.getD p.1 0)).occupied = true
            · rw [if_pos hocc]
              exact allocStep_state _
                (usedLe_trans (usedLe_unbindTemp _ _) (usedLe_bindTemp _ _ _))
            · rw [if_neg hocc]
              exact allocStep_state _ (usedLe_bindTemp _ _ _)
      · rw [if_neg hidx] at h
        exact ih h

theorem callPhase_step {s : AllocState} {e : SubEmitter} {args : List Operand}
    {s' : AllocState} {e' : SubEmitter}
    (h : callPhase s e args = .ok (s', e')) : AllocStep s e s' e' := by
  unfold callPhase at h
  exact allocStep_trans (spillCallerSaved_step s e) (bindCallArgs_step _ h)

/-- Inversion of `allocOpsAndEmit`: the filled instruction is appended
last. -/
theorem allocOpsAndEmit_inv {s : AllocState} {e : SubEmitter} {o : List Nat}
    {instr : MInstr} {liveIn : List Nat}
    {s' : AllocState} {e' : SubEmitter} {o' : List Nat}
    (h : allocOpsAndEmit s e o instr liveIn = .ok (s', e', o')) :
    ∃ s₂ e₂ o₂ srcRegs s₃ e₃ o₃ dstRegs,
      allocOperands s e o true liveIn instr.srcs = .ok (s₂, e₂, o₂, srcRegs) ∧
      allocOperands s₂ e₂ o₂ false liveIn instr.dsts = .ok (s₃, e₃, o₃, dstRegs) ∧
      s' = s₃ ∧ e' = emitAsm e₃ instr dstRegs srcRegs ∧ o' = o₃ := by
  unfold allocOpsAndEmit at h
  cases hsrc : allocOperands s e o true liveIn instr.srcs with
  | error err => rw [hsrc] at h; simp at h
  | ok p =>
      obtain ⟨s₂, e₂, o₂, srcRegs⟩ := p
      rw [hsrc] at h
      dsimp only at h
      cases hdst : allocOperands s₂ e₂ o₂ false liveIn instr.dsts with
      | error err => rw [hdst] at h; simp at h
      | ok q =>
          obtain ⟨s₃, e₃, o₃, dstRegs⟩ := q
          rw [hdst] at h
          dsimp only at h
          simp only [Except.ok.injEq, Prod.mk.injEq] at h
          exact ⟨s₂, e₂, o₂, srcRegs, s₃, e₃, o₃, dstRegs, rfl, hdst,
            h.1.symm, h.2.1.symm, h.2.2.symm⟩

theorem allocOpsAndEmit_step {s : AllocState} {e : SubEmitter} {o : List Nat}
    {instr : MInstr} {liveIn : List Nat}
    {s' : AllocState} {e' : SubEmitter} {o' : List Nat}
    (h : allocOpsAndEmit s e o instr liveIn = .ok (s', e', o')) :
    AllocStep s e s' e' := by
  obtain ⟨s₂, e₂, o₂, srcRegs, s₃, e₃, o₃, dstRegs, hsrc, hdst, hs', he', -⟩ :=
    allocOpsAndEmit_inv h
  subst hs'
  subst he'
  refine allocStep_trans (allocOperands_step _ hsrc) ?_
  refine allocStep_trans (allocOperands_step _ hdst) ?_
  exact allocStep_emitter _ (extends_emitAsm _ _ _ _) (fun hi => hi)

/-- Inversion of `allocForLoc` for a call instruction. -/
theorem allocForLoc_call_inv {s : AllocState} {e : SubEmitter} {o : List Nat}
    {instr : MInstr} {liveIn : List Nat}
    {s' : AllocState} {e' : SubEmitter} {o' : List Nat}
    (hcall : instr.isCall = true)
    (h : allocForLoc s e o instr liveIn = .ok (s', e', o')) :
    ∃ s₁ e₁, callPhase s e instr.srcs = .ok (s₁, e₁) ∧
      allocOpsAndEmit s₁ e₁ o instr liveIn = .ok (s', e', o') := by
  unfold allocForLoc at h
  rw [if_pos hcall] at h
  cases hc : callPhase s e instr.srcs with
  | error err => rw [hc] at h; simp at h
  | ok p =>
      obtain ⟨s₁, e₁⟩ := p
      rw [hc] at h
      dsimp only at h
      exact ⟨s₁, e₁, rfl, h⟩

theorem allocForLoc_step {s : AllocState} {e : SubEmitter} {o : List Nat}
    {instr : MInstr} {liveIn : List Nat}
    {s' : AllocState} {e' : SubEmitter} {o' : List Nat}
    (h : allocForLoc s e o instr liveIn = .ok (s', e', o')) :
    AllocStep s e s' e' := by
  by_cases hcall : instr.isCall = true
  · obtain ⟨s₁, e₁, hc, hrest⟩ := allocForLoc_call_inv hcall h
    exact allocStep_trans (callPhase_step hc) (allocOpsAndEmit_step hrest)
  · unfold allocForLoc at h
    rw [if_neg hcall] at h
    exact allocOpsAndEmit_step h

theorem allocSeqList_step :
    ∀ (locs : List Loc) {s : AllocState} {e : SubEmitter} {o : List Nat}
      {s' : AllocState} {e' : SubEmitter} {o' : List Nat},
      allocSeqList s e o locs = .ok (s', e', o') → AllocStep s e s' e' := by
  intro locs
  induction locs with
  | nil =>
      intro s e o s' e' o' h
      simp only [allocSeqList, Except.ok.injEq, Prod.mk.injEq] at h
      obtain ⟨hs', he', -⟩ := h
      subst hs'
      subst he'
      exact allocStep_refl s e
  | cons loc rest ih =>
      intro s e o s' e' o' h
      simp only [allocSeqList] at h
      obtain ⟨⟨s₁, e₁, o₁⟩, hone, hrest⟩ := bind_ok h
      exact allocStep_trans (allocForLoc_step hone) (ih hrest)

theorem exitStores_step (s : AllocState) (e : SubEmitter) (liveOut : List Nat) :
    AllocStep s e s (exitStores s e liveOut) := by
  unfold exitStores
  induction liveOut generalizing e with
  | nil => exact allocStep_refl s e
  | cons t rest ih =>
      rw [List.foldl_cons]
      refine allocStep_trans ?_ (ih _)
      cases h : dictLookup s.bindings t with
      | none => exact allocStep_refl s e
      | some r => exact allocStep_emitStoreIdx s e r (getReg s r).temp

/-- Inversion of `localAlloc` into its sequential and exit parts. -/
theorem localAlloc_inv {s : AllocState} {e : SubEmitter} {o : List Nat}
    {bb : BasicBlock} {s' : AllocState} {e' : SubEmitter} {o' : List Nat}
    (h : localAlloc s e o bb = .ok (s', e', o')) :
    ∃ s₁ e₁ o₁,
      allocSeqList (resetOccupied s) e o bb.allSeq = .ok (s₁, e₁, o₁) ∧
      localAllocExit s₁ e₁ o₁ bb = .ok (s', e', o') := by
  unfold localAlloc at h
  cases hseq : allocSeqList (resetOccupied s) e o bb.allSeq with
  | error err => rw [hseq] at h; simp at h
  | ok p =>
      obtain ⟨s₁, e₁, o₁⟩ := p
      rw [hseq] at h
      dsimp only at h
      exact ⟨s₁, e₁, o₁, rfl, h⟩

/-- Inversion of `localAllocExit`. -/
theorem localAllocExit_inv {s : AllocState} {e : SubEmitter} {o : List Nat}
    {bb : BasicBlock} {s' : AllocState} {e' : SubEmitter} {o' : List Nat}
    (h : localAllocExit s e o bb = .ok (s', e', o')) :
    ((!bb.isEmpty) && !(bb.kind = BlockKind.continuous)) = true ∧
      (∃ s₂ e₂ o₂,
        allocForLoc s (exitStores s e bb.liveOut) o
            (termLoc bb).instr (termLoc bb).liveIn
          = .ok (s₂, e₂, o₂) ∧
        s' = { s₂ with bindings := [] } ∧ e' = e₂ ∧ o' = o₂) ∨
    ((!bb.isEmpty) && !(bb.kind = BlockKind.continuous)) = false ∧
      s' = { s with bindings := [] } ∧ e' = exitStores s e bb.liveOut ∧ o' = o := by
  unfold localAllocExit at h
  by_cases hk : ((!bb.isEmpty) && !(bb.kind = BlockKind.continuous)) = true
  · rw [if_pos hk] at h
    cases hterm : allocForLoc s (exitStores s e bb.liveOut) o
        (termLoc bb).instr (termLoc bb).liveIn with
    | error err => rw [hterm] at h; simp at h
    | ok p =>
        obtain ⟨s₂, e₂, o₂⟩ := p
        rw [hterm] at h
        dsimp only at h
        simp only [Except.ok.injEq, Prod.mk.injEq] at h
        exact Or.inl ⟨hk, s₂, e₂, o₂, rfl, h.1.symm, h.2.1.symm, h.2.2.symm⟩
  · rw [if_neg hk] at h
    simp only [Except.ok.injEq, Prod.mk.injEq] at h
    refine Or.inr ⟨?_, h.1.symm, h.2.1.symm, h.2.2.symm⟩
    simpa using hk

theorem localAllocExit_step {s : AllocState} {e : SubEmitter} {o : List Nat}
    {bb : BasicBlock} {s' : AllocState} {e' : SubEmitter} {o' : List Nat}
    (h : localAllocExit s e o bb = .ok (s', e', o')) : AllocStep s e s' e' := by
  rcases localAllocExit_inv h with ⟨-, s₂, e₂, o₂, hterm, hs', he', -⟩ | ⟨-, hs', he', -⟩
  · subst hs'
    subst he'
    refine allocStep_trans (exitStores_step s e bb.liveOut) ?_
    refine allocStep_trans (allocForLoc_step hterm) ?_
    exact allocStep_state _ (fun r hr => hr)
  · subst hs'
    subst he'
    refine allocStep_trans (exitStores_step s e bb.liveOut) ?_
    exact allocStep_state _ (fun r hr => hr)

theorem localAlloc_step {s : AllocState} {e : SubEmitter} {o : List Nat}
    {bb : BasicBlock} {s' : AllocState} {e' : SubEmitter} {o' : List Nat}
    (h : localAlloc s e o bb = .ok (s', e', o')) : AllocStep s e s' e' := by
  obtain ⟨s₁, e₁, o₁, hseq, hexit⟩ := localAlloc_inv h
  refine allocStep_trans (allocStep_state e (usedLe_resetOccupied s)) ?_
  exact allocStep_trans (allocSeqList_step _ hseq) (localAllocExit_step hexit)

theorem acceptBlocks_step :
    ∀ (bbs : List BasicBlock) (n : Nat) (edges : List (Nat × Nat))
      {s : AllocState} {e : SubEmitter} {o : List Nat}
      {s' : AllocState} {e' : SubEmitter} {o' : List Nat},
      acceptBlocks n edges s e o bbs = .ok (s', e', o') → AllocStep s e s' e' := by
  intro bbs
  induction bbs with
  | nil =>
      intro n edges s e o s' e' o' h
      simp only [acceptBlocks, Except.ok.injEq, Prod.mk.injEq] at h
      obtain ⟨hs', he', -⟩ := h
      subst hs'
      subst he'
      exact allocStep_refl s e
  | cons bb rest ih =>
      intro n edges s e o s' e' o' h
      simp only [acceptBlocks] at h
      by_cases hr : isReachable n edges bb.id = true
      · rw [if_pos hr] at h
        obtain ⟨⟨s₁, e₁, o₁⟩, hone, hrest⟩ := bind_ok h
        refine allocStep_trans ?_ (ih n edges hrest)
        refine allocStep_trans ?_ (localAlloc_step hone)
        cases bb.label with
        | none => exact allocStep_refl s e
        | some l => exact allocStep_emitter s (extends_emitLabel e l) (fun hi => hi)
      · rw [if_neg hr] at h
        exact ih n edges h

theorem usedLe_acceptBindArgs (s : AllocState) (args : List Nat) :
    usedLe s (acceptBindArgs s args) := by
  unfold acceptBindArgs
  generalize args.enum = L
  induction L generalizing s with
  | nil => exact usedLe_refl s
  | cons p rest ih =>
      rw [List.foldl_cons]
      refine usedLe_trans ?_ (ih _)
      unfold bindArgStep
      by_cases h : p.1 < argRegIds.length
      · rw [if_pos h]
        exact usedLe_bindTemp s p.2 (argRegIds.getD p.1 0)
      · rw [if_neg h]
        exact usedLe_refl s

theorem accept_step {s : AllocState} {o : List Nat} {g : CFGData}
    {info : SubroutineInfo} {s' : AllocState} {e' : SubEmitter} {o' : List Nat}
    (h : accept s o g info = .ok (s', e', o')) :
    usedLe s s' ∧ EmitterInv e' := by
  unfold accept at h
  have hstep := acceptBlocks_step g.nodes g.nodes.length g.edges h
  exact ⟨usedLe_trans (usedLe_acceptBindArgs s info.args) hstep.2.2,
    hstep.2.1 emitterInv_init⟩


/-! ## Claim C7: block-exit stores and terminator ordering -/

theorem getLast_append_singleton {α : Type} (l : List α) (a : α) :
    (l ++ [a]).getLast? = some a := by
  rw [List.getLast?_append_cons]
  rfl

theorem exitStores_mem (s : AllocState) (liveOut : List Nat) :
    ∀ (e : SubEmitter) (t r : Nat), t ∈ liveOut → dictLookup s.bindings t = some r →
      ∃ off, EmitItem.storeW r off ∈ (exitStores s e liveOut).buf ∧
        dictLookup (exitStores s e liveOut).offsets (getReg s r).temp = some off := by
  induction liveOut with
  | nil => intro e t r ht; simp at ht
  | cons t0 rest ih =>
      intro e t r ht hb
      have hfold : exitStores s e (t0 :: rest)
          = exitStores s
              (match dictLookup s.bindings t0 with
               | some r0 => emitStoreIdx e r0 (getReg s r0).temp
               | none => e) rest := rfl
      rcases List.mem_cons.mp ht with h | h
      · subst h
        rw [hfold, hb]
        set e₁ := emitStoreIdx e r (getReg s r).temp with he₁
        have hbuf : EmitItem.storeW r (storedOff e (getReg s r).temp) ∈ e₁.buf := by
          rw [he₁, emitStoreIdx_buf]
          simp
        have hoff : dictLookup e₁.offsets (getReg s r).temp
            = some (storedOff e (getReg s r).temp) := emitStoreIdx_lookup_self e r _
        have hext : Extends e₁ (exitStores s e₁ rest) := (exitStores_step s e₁ rest).1
        obtain ⟨l, hl⟩ := hext.1
        refine ⟨storedOff e (getReg s r).temp, ?_, hext.2 _ _ hoff⟩
        rw [hl]
        exact List.mem_append_left _ hbuf
      · rw [hfold]
        exact ih _ t r h hb

/-- Any successful `allocForLoc` leaves the filled instruction as the very
last element of the buffer. -/
theorem allocForLoc_lastAsm {s : AllocState} {e : SubEmitter} {o : List Nat}
    {instr : MInstr} {liveIn : List Nat}
    {s' : AllocState} {e' : SubEmitter} {o' : List Nat}
    (h : allocForLoc s e o instr liveIn = .ok (s', e', o')) :
    ∃ d sr, e'.buf.getLast? = some (.asm instr d sr) := by
  have main : ∀ {s₀ : AllocState} {e₀ : SubEmitter},
      allocOpsAndEmit s₀ e₀ o instr liveIn = .ok (s', e', o') →
      ∃ d sr, e'.buf.getLast? = some (.asm instr d sr) := by
    intro s₀ e₀ h₀
    obtain ⟨s₂, e₂, o₂, srcRegs, s₃, e₃, o₃, dstRegs, -, -, -, he', -⟩ :=
      allocOpsAndEmit_inv h₀
    subst he'
    exact ⟨dstRegs, srcRegs, getLast_append_singleton _ _⟩
  by_cases hcall : instr.isCall = true
  · obtain ⟨s₁, e₁, -, hrest⟩ := allocForLoc_call_inv hcall h
    exact main hrest
  · unfold allocForLoc at h
    rw [if_neg hcall] at h
    exact main h

/-- C7: at the exit of every allocated basic block, every temp in the
block's `liveOut` set that still has a register binding after the
straight-line instructions gets a store of its bound register to the
temp's stack slot in the emitted buffer; and when the block does not end
in a simple fallthrough, the terminator instruction is allocated last and
its filled form is the final element of the buffer, after all live-out
stores. -/
theorem c7_blockExitStores (s : AllocState) (e : SubEmitter) (o : List Nat)
    (bb : BasicBlock) (s' : AllocState) (e' : SubEmitter) (o' : List Nat)
    (h : localAlloc s e o bb = .ok (s', e', o')) :
    ∃ s₁ e₁ o₁,
      allocSeqList (resetOccupied s) e o bb.allSeq = .ok (s₁, e₁, o₁) ∧
      (∀ t r, t ∈ bb.liveOut → dictLookup s₁.bindings t = some r →
        ∃ off, EmitItem.storeW r off ∈ e'.buf ∧
          dictLookup e'.offsets (getReg s₁ r).temp = some off) ∧
      (bb.isEmpty = false → ¬ bb.kind = BlockKind.continuous →
        ∃ d sr, e'.buf.getLast? = some (.asm (termLoc bb).instr d sr)) := by
  obtain ⟨s₁, e₁, o₁, hseq, hexit⟩ := localAlloc_inv h
  refine ⟨s₁, e₁, o₁, hseq, ?_, ?_⟩
  · intro t r ht hb
    obtain ⟨off, hmem, hoff⟩ := exitStores_mem s₁ bb.liveOut e₁ t r ht hb
    have hext : Extends (exitStores s₁ e₁ bb.liveOut) e' := by
      rcases localAllocExit_inv hexit with ⟨-, s₂, e₂, o₂, hterm, -, he', -⟩ | ⟨-, -, he', -⟩
      · subst he'
        exact (allocForLoc_step hterm).1
      · subst he'
        exact extends_refl _
    obtain ⟨l, hl⟩ := hext.1
    refine ⟨off, ?_, hext.2 _ _ hoff⟩
    rw [hl]
    exact List.mem_append_left _ hmem
  · intro hne hnc
    rcases localAllocExit_inv hexit with ⟨-, s₂, e₂, o₂, hterm, -, he', -⟩ | ⟨hk, -, -, -⟩
    · subst he'
      exact allocForLoc_lastAsm hterm
    · exfalso
      rw [hne] at hk
      simp at hk
      exact hnc hk

/-- Witness for C7: a fallthrough block defining temps 0 and 1, both live
out — the exit emits stores of `t0` (bound to `T0`, id 5) and `t1` (bound
to `T1`, id 6) to their stack slots. -/
theorem c7_blockExitStores_witness :
    ∃ s' e' o' off₀ off₁,
      localAlloc initRegFile {} [] bbLiveOut = Except.ok (s', e', o') ∧
      EmitItem.storeW 5 off₀ ∈ e'.buf ∧ EmitItem.storeW 6 off₁ ∈ e'.buf := by
  obtain ⟨⟨s', e', o'⟩, hrun⟩ :
      ∃ p, localAlloc initRegFile {} [] bbLiveOut = Except.ok p := ⟨_, rfl⟩
  obtain ⟨s₁, e₁, o₁, hseq, hstores, -⟩ :=
    c7_blockExitStores initRegFile {} [] bbLiveOut s' e' o' hrun
  have hb0 : dictLookup s₁.bindings 0 = some 5 := by
    have h1 : (allocSeqList (resetOccupied initRegFile) {} [] bbLiveOut.allSeq).map
        (fun p => dictLookup p.1.bindings 0) = .ok (dictLookup s₁.bindings 0) := by
      rw [hseq]
      rfl
    have h2 : (allocSeqList (resetOccupied initRegFile) {} [] bbLiveOut.allSeq).map
        (fun p => dictLookup p.1.bindings 0) = .ok (some 5) := by rfl
    injection h1.symm.trans h2
  have hb1 : dictLookup s₁.bindings 1 = some 6 := by
    have h1 : (allocSeqList (resetOccupied initRegFile) {} [] bbLiveOut.allSeq).map
        (fun p => dictLookup p.1.bindings 1) = .ok (dictLookup s₁.bindings 1) := by
      rw [hseq]
      rfl
    have h2 : (allocSeqList (resetOccupied initRegFile) {} [] bbLiveOut.allSeq).map
        (fun p => dictLookup p.1.bindings 1) = .ok (some 6) := by rfl
    injection h1.symm.trans h2
  obtain ⟨off₀, hm0, -⟩ := hstores 0 5 (by decide) hb0
  obtain ⟨off₁, hm1, -⟩ := hstores 1 6 (by decide) hb1
  exact ⟨s', e', o', off₀, off₁, hrun, hm0, hm1⟩


/-! ## Claim C2: the `used` flags across functions -/

theorem initFold_not_mem :
    ∀ (L : List Nat) (f : Nat → RegInfo) (r : Nat), r ∉ L →
      (L.foldl initUsedStep f) r = f r := by
  intro L
  induction L with
  | nil => intro f r _; rfl
  | cons a L ih =>
      intro f r hr
      rw [List.foldl_cons, ih _ _ (fun hc => hr (List.mem_cons_of_mem _ hc))]
      unfold initUsedStep
      rw [if_neg (fun hc : r = a => hr (by rw [hc]; exact List.mem_cons_self a L))]

theorem initFold_used :
    ∀ (L : List Nat) (f : Nat → RegInfo) (r : Nat), r ∈ L →
      ((L.foldl initUsedStep f) r).used = false := by
  intro L
  induction L with
  | nil => intro f r hr; simp at hr
  | cons a L ih =>
      intro f r hr
      by_cases hL : r ∈ L
      · rw [List.foldl_cons]
        exact ih _ _ hL
      · have ha : r = a := by
          rcases List.mem_cons.mp hr with h | h
          · exact h
          · exact absurd h hL
        subst ha
        rw [List.foldl_cons, initFold_not_mem _ _ _ hL]
        unfold initUsedStep
        rw [if_pos rfl]

/-- C2 as corrected: the `used` flags are reset only once, when the
allocator is constructed (`BruteRegAlloc.__init__`, called once per
`Asm.transform`, before the first function); `accept` never clears a
`used` flag, so the flags accumulate monotonically across the functions of
one program; and `emitFunc`'s prologue saves exactly the callee-saved
registers whose `used` flag is set at emission time — hence a register
bound in any earlier function of the program is also saved and restored by
every later function's prologue/epilogue. -/
theorem c2_usedFlagLifecycle :
    (∀ s : AllocState, ∀ r, r ∈ allocatableIds →
        (getReg (bruteRegAllocInit s) r).used = false) ∧
    (∀ (s : AllocState) (o : List Nat) (g : CFGData) (info : SubroutineInfo)
        (s' : AllocState) (e' : SubEmitter) (o' : List Nat),
        accept s o g info = Except.ok (s', e', o') →
        ∀ r, (getReg s r).used = true → (getReg s' r).used = true) ∧
    (∀ u : Nat → Bool, ∀ r, r ∈ emitFuncSaveIds u ↔ r ∈ calleeSaveIds ∧ u r = true) := by
  refine ⟨?_, ?_, ?_⟩
  · intro s r hr
    exact initFold_used allocatableIds s.regs r hr
  · intro s o g info s' e' o' h r hr
    exact (accept_step h).1 r hr
  · intro u r
    unfold emitFuncSaveIds
    simp [List.mem_filter]

/-- Witness for C2 (amended): after the once-per-program reset every
allocatable register is unused; and running a function from a table in
which `S1` (id 9) is already used leaves it used. -/
theorem c2_usedFlagLifecycle_witness :
    (getReg (bruteRegAllocInit initRegFile) 5).used = false ∧
    usedOf (accept usedSeed [] (cfgStraight 1) infoNone) 9 = some true := by
  constructor
  · exact c2_usedFlagLifecycle.1 initRegFile 5 (by decide)
  · obtain ⟨⟨s', e', o'⟩, hrun⟩ :
        ∃ p, accept usedSeed [] (cfgStraight 1) infoNone = Except.ok p := ⟨_, rfl⟩
    have hused := c2_usedFlagLifecycle.2.1 usedSeed [] (cfgStraight 1) infoNone
      s' e' o' hrun 9 (by decide)
    unfold usedOf
    rw [hrun]
    show some ((getReg s' 9).used) = some true
    rw [hused]

/-- Counterexample to C2 as stated: in the two-function program where the
first function allocates 16 temps (reaching the callee-saved `S1`, id 9)
and the second allocates one temp, the allocator state produced by the
first function's `accept` — which `Asm.transform` passes unchanged to the
second function — still has `used = true` for `S1`; consequently both
functions' prologues save `S1` (frame data `(52, [9])` for each) although
the second function never binds it. The `used` flags are thus not reset
before each function. -/
theorem c2_usedFlagLifecycle_counterexample :
    usedOf (accept (bruteRegAllocInit initRegFile) [] (cfgStraight 16) infoNone) 9
      = some true ∧
    framesOf (transform [(cfgStraight 16, infoNone), (cfgStraight 1, infoNone)] [])
      = some [(52, [9]), (52, [9])] := by
  constructor
  · decide
  · decide

/-! ## Claim C3: block-local bindings -/

theorem dictInsert_ne_nil (m : List (Nat × Nat)) (k v : Nat) :
    dictInsert m k v ≠ [] := by
  cases m with
  | nil => simp [dictInsert]
  | cons p rest =>
      unfold dictInsert
      by_cases h : p.1 = k <;> simp [h]

theorem bindArgStep_ne_nil :
    ∀ (L : List (Nat × Nat)) (s : AllocState), s.bindings ≠ [] →
      (L.foldl bindArgStep s).bindings ≠ [] := by
  intro L
  induction L with
  | nil => intro s h; exact h
  | cons p rest ih =>
      intro s h
      rw [List.foldl_cons]
      refine ih _ ?_
      unfold bindArgStep
      by_cases hp : p.1 < argRegIds.length
      · rw [if_pos hp]
        exact dictInsert_ne_nil _ _ _
      · rw [if_neg hp]
        exact h

/-- C3 as corrected: the allocator's bindings are cleared at the end of
every block's allocation (`localAlloc` always returns an empty map), so
every block after the first starts with empty bindings and values
surviving a block boundary travel only through stack slots; but the first
block of a function with parameters is the exception — `accept` pre-binds
the argument temps before the block loop, so the bindings map passed to
the first `localAlloc` is non-empty. -/
theorem c3_bindingsLifecycle :
    (∀ (s : AllocState) (e : SubEmitter) (o : List Nat) (bb : BasicBlock)
        (s' : AllocState) (e' : SubEmitter) (o' : List Nat),
        localAlloc s e o bb = Except.ok (s', e', o') → s'.bindings = []) ∧
    (∀ (s : AllocState) (args : List Nat), args ≠ [] →
        (acceptBindArgs s args).bindings ≠ []) := by
  constructor
  · intro s e o bb s' e' o' h
    obtain ⟨s₁, e₁, o₁, -, hexit⟩ := localAlloc_inv h
    rcases localAllocExit_inv hexit with ⟨-, s₂, e₂, o₂, -, hs', -, -⟩ | ⟨-, hs', -, -⟩ <;>
      rw [hs']
  · intro s args h
    cases args with
    | nil => exact absurd rfl h
    | cons a rest =>
        unfold acceptBindArgs
        have henum : (a :: rest).enum = (0, a) :: List.enumFrom 1 rest := rfl
        rw [henum, List.foldl_cons]
        refine bindArgStep_ne_nil _ _ ?_
        unfold bindArgStep
        rw [if_pos (by decide : 0 < argRegIds.length)]
        exact dictInsert_ne_nil _ _ _

/-- Witness for C3 (amended): an empty block's allocation ends with empty
bindings, and pre-binding one parameter gives a non-empty map. -/
theorem c3_bindingsLifecycle_witness :
    bindingsOf (localAlloc initRegFile {} [] bbEmpty) = some [] ∧
    (acceptBindArgs initRegFile [3]).bindings ≠ [] := by
  constructor
  · obtain ⟨⟨s', e', o'⟩, hrun⟩ :
        ∃ p, localAlloc initRegFile {} [] bbEmpty = Except.ok p := ⟨_, rfl⟩
    have hnil := c3_bindingsLifecycle.1 initRegFile {} [] bbEmpty s' e' o' hrun
    unfold bindingsOf
    rw [hrun]
    show some s'.bindings = some ([] : List (Nat × Nat))
    rw [hnil]
  · exact c3_bindingsLifecycle.2 initRegFile [3] (by simp)

/-- Counterexample to C3 as stated: for a function with one parameter
(argument temp 0), the state `accept` hands to the first block's
`localAlloc` — by definition `acceptBindArgs` applied to the initial state
— already binds temp 0 to `A0` (id 10): the bindings map is not empty at
the start of the first block's allocation. -/
theorem c3_bindingsLifecycle_counterexample :
    (acceptBindArgs (bruteRegAllocInit initRegFile) infoOneArg.args).bindings
      = [(0, 10)] ∧
    (acceptBindArgs (bruteRegAllocInit initRegFile) infoOneArg.args).bindings ≠ [] := by
  constructor
  · decide
  · decide

/-! ## Claim C4: frame-size determinism -/

/-- C4 as corrected: for every run, the frame size `emitFunc` allocates is
the fixed function `4 * len(CalleeSaved) + 8 + 4 * (number of distinct
temps assigned stack slots)` of the spill count — but the spill count
itself, and hence the frame size, is not invariant across runs of the same
input: it depends on the random eviction choices (see the
counterexample). -/
theorem c4_frameSizeFormula (s : AllocState) (o : List Nat) (g : CFGData)
    (info : SubroutineInfo) (s' : AllocState) (e' : SubEmitter) (o' : List Nat)
    (h : accept s o g info = Except.ok (s', e', o')) :
    e'.nextLocalOffset = 4 * calleeSaveIds.length + 8 + 4 * e'.offsets.length :=
  (accept_step h).2.1

/-- Witness for C4 (amended): a spill-free one-temp function gets exactly
the 52-byte fixed frame. -/
theorem c4_frameSizeFormula_witness :
    frameOf (accept (bruteRegAllocInit initRegFile) [] (cfgStraight 1) infoNone)
      = some 52 := by
  obtain ⟨⟨s', e', o'⟩, hrun⟩ :
      ∃ p, accept (bruteRegAllocInit initRegFile) [] (cfgStraight 1) infoNone
        = Except.ok p := ⟨_, rfl⟩
  have hf := c4_frameSizeFormula (bruteRegAllocInit initRegFile) [] (cfgStraight 1)
    infoNone s' e' o' hrun
  have hlen : e'.offsets.length = 0 := by
    have h1 : (accept (bruteRegAllocInit initRegFile) [] (cfgStraight 1) infoNone).map
        (fun p => p.2.1.offsets.length) = .ok e'.offsets.length := by
      rw [hrun]
      rfl
    have h2 : (accept (bruteRegAllocInit initRegFile) [] (cfgStraight 1) infoNone).map
        (fun p => p.2.1.offsets.length) = .ok 0 := by rfl
    injection h1.symm.trans h2
  unfold frameOf
  rw [hrun]
  show some e'.nextLocalOffset = some 52
  rw [hf, hlen]
  rfl

/-- Counterexample to C4 as stated: compiling the same two-block function
`cfgFrame` under two different random-eviction oracles yields frame sizes
152 and 148 — the block-exit live-out stores differ because the eviction
choice at `t26` decides whether `t1` is still register-bound at the block
boundary, so the set of distinct spilled temps differs between the two
runs. -/
theorem c4_frameSizeFormula_counterexample :
    frameOf (accept (bruteRegAllocInit initRegFile) [0] cfgFrame infoFrame)
      = some 152 ∧
    frameOf (accept (bruteRegAllocInit initRegFile) [1] cfgFrame infoFrame)
      = some 148 := by
  constructor
  · decide
  · decide


/-! ## Claim C1: call-site convention — supporting lemmas -/

theorem unbindTemp_bindings_some {s : AllocState} {t r : Nat}
    (h : dictLookup s.bindings t = some r) :
    (unbindTemp s t).bindings = dictErase s.bindings t := by
  unfold unbindTemp
  rw [h]
  rfl

theorem getReg_unbindTemp_some_self {s : AllocState} {t r : Nat}
    (h : dictLookup s.bindings t = some r) :
    getReg (unbindTemp s t) r = { getReg s r with occupied := false } := by
  unfold unbindTemp
  rw [h]
  simp [getReg, setReg]

theorem getReg_unbindTemp_some_ne {s : AllocState} {t r x : Nat}
    (h : dictLookup s.bindings t = some r) (hx : x ≠ r) :
    getReg (unbindTemp s t) x = getReg s x := by
  unfold unbindTemp
  rw [h]
  simp [getReg, setReg, hx]

theorem spillList_extends :
    ∀ (L : List Nat) (s : AllocState) (e : SubEmitter),
      Extends e (spillList s e L).2 :=
  fun L s e => (spillList_step L s e).1

theorem spillList_temp :
    ∀ (L : List Nat) (s : AllocState) (e : SubEmitter) (x : Nat),
      (getReg (spillList s e L).1 x).temp = (getReg s x).temp := by
  intro L
  induction L with
  | nil => intro s e x; rfl
  | cons r rest ih =>
      intro s e x
      show (getReg (spillList (unbindTemp s (getReg s r).temp) _ rest).1 x).temp = _
      rw [ih, unbindTemp_temp]

theorem spillList_spec :
    ∀ (L : List Nat) (s : AllocState) (e : SubEmitter),
      L.Nodup →
      (∀ r, r ∈ L → dictLookup s.bindings (getReg s r).temp = some r) →
      (∀ r r', r ∈ L → r' ∈ L → (getReg s r).temp = (getReg s r').temp → r = r') →
      ∃ items,
        (spillList s e L).2.buf = e.buf ++ items ∧
        items.length = L.length ∧
        (∀ i, i < L.length → ∃ off,
          items.getD i (.lab 0) = EmitItem.storeW (L.getD i 0) off ∧
          dictLookup (spillList s e L).2.offsets (getReg s (L.getD i 0)).temp
            = some off) ∧
        (∀ x, x ∉ L → getReg (spillList s e L).1 x = getReg s x) ∧
        (∀ r, r ∈ L → (getReg (spillList s e L).1 r).occupied = false) ∧
        (∀ item, item ∈ items → ∃ rg off, item = EmitItem.storeW rg off ∧ rg ∈ L) := by
  intro L
  induction L with
  | nil =>
      intro s e _ _ _
      exact ⟨[], by simp [spillList], rfl, by intro i hi; simp at hi,
        fun x _ => rfl, by intro r hr; simp at hr, by intro item hi; simp at hi⟩
  | cons r rest ih =>
      intro s e hnd hlk hinj
      have hr0 : r ∈ r :: rest := List.mem_cons_self r rest
      have hlkr : dictLookup s.bindings (getReg s r).temp = some r := hlk r hr0
      have hrnotin : r ∉ rest := (List.nodup_cons.mp hnd).1
      set t₀ := (getReg s r).temp with ht₀
      set e₁ := emitStoreIdx e r t₀ with he₁
      set s₁ := unbindTemp s t₀ with hs₁
      have hstep : spillList s e (r :: rest) = spillList s₁ e₁ rest := rfl
      have hregs_ne : ∀ x, x ≠ r → getReg s₁ x = getReg s x := by
        intro x hx
        rw [hs₁]
        exact getReg_unbindTemp_some_ne hlkr hx
      have hregs_r : getReg s₁ r = { getReg s r with occupied := false } := by
        rw [hs₁]
        exact getReg_unbindTemp_some_self hlkr
      have hlk' : ∀ r', r' ∈ rest → dictLookup s₁.bindings (getReg s₁ r').temp = some r' := by
        intro r' hr'
        have hne : r' ≠ r := fun hc => hrnotin (hc ▸ hr')
        rw [hregs_ne r' hne, hs₁, unbindTemp_bindings_some hlkr]
        have htne : (getReg s r').temp ≠ t₀ := by
          intro hc
          exact hne (hinj r' r (List.mem_cons_of_mem _ hr') hr0 (ht₀ ▸ hc))
        rw [dictLookup_erase_ne _ htne]
        exact hlk r' (List.mem_cons_of_mem _ hr')
      have hinj' : ∀ a b, a ∈ rest → b ∈ rest →
          (getReg s₁ a).temp = (getReg s₁ b).temp → a = b := by
        intro a b ha hb hab
        have hna : a ≠ r := fun hc => hrnotin (hc ▸ ha)
        have hnb : b ≠ r := fun hc => hrnotin (hc ▸ hb)
        rw [hregs_ne a hna, hregs_ne b hnb] at hab
        exact hinj a b (List.mem_cons_of_mem _ ha) (List.mem_cons_of_mem _ hb) hab
      obtain ⟨items', hbuf', hlen', hidx', hout', hocc', hshape'⟩ :=
        ih s₁ e₁ (List.nodup_cons.mp hnd).2 hlk' hinj'
      refine ⟨EmitItem.storeW r (storedOff e t₀) :: items', ?_, ?_, ?_, ?_, ?_, ?_⟩
      · rw [hstep, hbuf', he₁, emitStoreIdx_buf]
        simp
      · simpa using hlen'
      · intro i hi
        cases i with
        | zero =>
            refine ⟨storedOff e t₀, rfl, ?_⟩
            rw [hstep]
            refine (spillList_extends rest s₁ e₁).2 _ _ ?_
            rw [he₁]
            exact emitStoreIdx_lookup_self e r t₀
        | succ j =>
            have hj : j < rest.length := by simpa using hi
            obtain ⟨off, hoff1, hoff2⟩ := hidx' j hj
            refine ⟨off, hoff1, ?_⟩
            rw [hstep]
            have hteq : (getReg s₁ (rest.getD j 0)).temp = (getReg s (rest.getD j 0)).temp := by
              rw [hs₁, unbindTemp_temp]
            rw [show ((r :: rest).getD (j + 1) 0) = rest.getD j 0 from rfl, ← hteq]
            exact hoff2
      · intro x hx
        have hxr : x ≠ r := fun hc => hx (hc ▸ hr0)
        have hxrest : x ∉ rest := fun hc => hx (List.mem_cons_of_mem _ hc)
        rw [hstep, hout' x hxrest, hregs_ne x hxr]
      · intro a ha
        rcases List.mem_cons.mp ha with h | h
        · subst h
          rw [hstep, hout' a hrnotin, hregs_r]
        · rw [hstep]
          exact hocc' a h
      · intro item hitem
        rcases List.mem_cons.mp hitem with h | h
        · exact ⟨r, storedOff e t₀, h, hr0⟩
        · obtain ⟨rg, off, hio, hrg⟩ := hshape' item h
          exact ⟨rg, off, hio, List.mem_cons_of_mem _ hrg⟩

theorem callerSave_sub_allocatable : ∀ r, r ∈ callerSaveIds → r ∈ allocatableIds := by
  decide

theorem occupiedCallerIds_spec (s : AllocState) (r : Nat) :
    r ∈ occupiedCallerIds s ↔ r ∈ callerSaveIds ∧ (getReg s r).occupied = true := by
  unfold occupiedCallerIds
  simp [List.mem_filter]

theorem occupiedCallerIds_nodup (s : AllocState) : (occupiedCallerIds s).Nodup :=
  List.Nodup.filter _ (by decide)

/-- The caller-save spill phase under a consistent state: the emitted
segment is exactly one store per occupied caller-saved register, in
`Riscv.CallerSaved` order, each to its occupant temp's slot; afterwards no
caller-saved register is occupied. -/
theorem spillCallerSaved_spec (s : AllocState) (e : SubEmitter) (hwf : WFState s) :
    ∃ items,
      (spillCallerSaved s e).2.buf = e.buf ++ items ∧
      items.length = (occupiedCallerIds s).length ∧
      (∀ i, i < (occupiedCallerIds s).length → ∃ off,
        items.getD i (.lab 0) = EmitItem.storeW ((occupiedCallerIds s).getD i 0) off ∧
        dictLookup (spillCallerSaved s e).2.offsets
            (getReg s ((occupiedCallerIds s).getD i 0)).temp = some off) ∧
      (∀ r, r ∈ callerSaveIds → (getReg (spillCallerSaved s e).1 r).occupied = false) ∧
      (∀ item, item ∈ items → ∃ rg off, item = EmitItem.storeW rg off ∧ rg ∈ callerSaveIds) := by
  have hlk : ∀ r, r ∈ occupiedCallerIds s →
      dictLookup s.bindings (getReg s r).temp = some r := by
    intro r hr
    obtain ⟨hcs, hocc⟩ := (occupiedCallerIds_spec s r).mp hr
    exact hwf.2 r (callerSave_sub_allocatable r hcs) hocc
  have hinj : ∀ r r', r ∈ occupiedCallerIds s → r' ∈ occupiedCallerIds s →
      (getReg s r).temp = (getReg s r').temp → r = r' := by
    intro r r' hr hr' heq
    have h1 := hlk r hr
    have h2 := hlk r' hr'
    rw [heq] at h1
    rw [h1] at h2
    injection h2
  obtain ⟨items, hbuf, hlen, hidx, hout, hocc, hshape⟩ :=
    spillList_spec (occupiedCallerIds s) s e (occupiedCallerIds_nodup s) hlk hinj
  refine ⟨items, hbuf, hlen, hidx, ?_, ?_⟩
  · intro r hr
    by_cases hmem : r ∈ occupiedCallerIds s
    · exact hocc r hmem
    · rw [show spillCallerSaved s e = spillList s e (occupiedCallerIds s) from rfl] at *
      rw [hout r hmem]
      cases h : (getReg s r).occupied
      · rfl
      · exact absurd ((occupiedCallerIds_spec s r).mpr ⟨hr, h⟩) hmem
  · intro item hitem
    obtain ⟨rg, off, hio, hrg⟩ := hshape item hitem
    exact ⟨rg, off, hio, ((occupiedCallerIds_spec s rg).mp hrg).1⟩


theorem argReg_mem_callerSave : ∀ k, k < argRegIds.length →
    argRegIds.getD k 0 ∈ callerSaveIds := by
  decide

theorem argReg_getD_inj : ∀ j, j < argRegIds.length → ∀ k, k < argRegIds.length →
    argRegIds.getD j 0 = argRegIds.getD k 0 → j = k := by
  decide

theorem argReg_ne_t0 : ∀ k, k < argRegIds.length → argRegIds.getD k 0 ≠ 5 := by
  decide

/-- The argument-binding loop of the call phase, when no caller-saved
register is occupied except those bound by earlier iterations: each
argument temp is bound to its fixed argument register with exactly one
load from the temp's slot, offsets are untouched, and afterwards the
occupied caller-saved registers are exactly argument registers. -/
theorem bindCallArgs_spec :
    ∀ (args : List Operand) (k : Nat) (s : AllocState) (e : SubEmitter)
      (s' : AllocState) (e' : SubEmitter),
      bindCallArgs s e (List.enumFrom k args) = .ok (s', e') →
      k + args.length ≤ argRegIds.length →
      (args.map Operand.index).Nodup →
      (∀ r, r ∈ callerSaveIds → (getReg s r).occupied = true →
        ∃ j, j < k ∧ r = argRegIds.getD j 0) →
      ∃ loads,
        e'.buf = e.buf ++ loads ∧
        e'.offsets = e.offsets ∧
        loads.length = args.length ∧
        (∀ i, i < args.length → ∃ off,
          loads.getD i (.lab 0) = EmitItem.loadW (argRegIds.getD (k + i) 0) off ∧
          dictLookup e.offsets (args.getD i (.temp 0)).index = some off) ∧
        (∀ i, i < args.length →
          dictLookup s'.bindings (args.getD i (.temp 0)).index
            = some (argRegIds.getD (k + i) 0)) ∧
        (∀ t v, dictLookup s.bindings t = some v → t ∉ args.map Operand.index →
          dictLookup s'.bindings t = some v) ∧
        (∀ r, r ∈ callerSaveIds → (getReg s' r).occupied = true →
          ∃ j, j < k + args.length ∧ r = argRegIds.getD j 0) ∧
        (∀ item, item ∈ loads → ∃ rg off, item = EmitItem.loadW rg off) := by
  intro args
  induction args with
  | nil =>
      intro k s e s' e' h _ _ hocc
      simp only [List.enumFrom, bindCallArgs, Except.ok.injEq, Prod.mk.injEq] at h
      obtain ⟨hs', he'⟩ := h
      subst hs'
      subst he'
      exact ⟨[], by simp, rfl, rfl, by intro i hi; simp at hi, by intro i hi; simp at hi,
        fun t v hv _ => hv, by simpa using hocc, by intro item hi; simp at hi⟩
  | cons a rest ih =>
      intro k s e s' e' h hk hnd hocc
      have hklt : k < argRegIds.length := by
        simp at hk
        omega
      have hnd2 : (a.index :: rest.map Operand.index).Nodup := hnd
      have hindexnot : a.index ∉ rest.map Operand.index := (List.nodup_cons.mp hnd2).1
      have hndtail : (rest.map Operand.index).Nodup := (List.nodup_cons.mp hnd2).2
      have hstep : List.enumFrom k (a :: rest) = (k, a) :: List.enumFrom (k + 1) rest := rfl
      have hAnotocc : (getReg s (argRegIds.getD k 0)).occupied = false := by
        cases hc : (getReg s (argRegIds.getD k 0)).occupied
        · rfl
        · obtain ⟨j, hj, hAj⟩ := hocc (argRegIds.getD k 0)
            (argReg_mem_callerSave k hklt) hc
          have := argReg_getD_inj j (by omega) k hklt hAj.symm
          omega
      have hneg : ¬((getReg s (argRegIds.getD k 0)).occupied = true) := by
        rw [hAnotocc]
        exact Bool.false_ne_true
      rw [hstep] at h
      unfold bindCallArgs at h
      rw [if_pos hklt] at h
      dsimp only at h
      rw [if_neg hneg] at h
      cases hld : emitLoadFromStack e (argRegIds.getD k 0) a.index with
      | error e₁ =>
          rw [hld] at h
          simp at h
      | ok e₁ =>
          rw [hld] at h
          obtain ⟨off₀, hoff₀, he₁⟩ := emitLoadFromStack_ok hld
          have hocc' : ∀ r, r ∈ callerSaveIds →
              (getReg (bindTemp s a.index (argRegIds.getD k 0)) r).occupied = true →
              ∃ j, j < k + 1 ∧ r = argRegIds.getD j 0 := by
            intro r hr hro
            by_cases hrA : r = argRegIds.getD k 0
            · exact ⟨k, by omega, hrA⟩
            · rw [getReg_bindTemp_ne _ hrA] at hro
              obtain ⟨j, hj, hrj⟩ := hocc r hr hro
              exact ⟨j, by omega, hrj⟩
          obtain ⟨loads', hbuf', hoffs', hlen', hidx', hbind', hstab', hoccf', hshape'⟩ :=
            ih (k + 1) (bindTemp s a.index (argRegIds.getD k 0)) e₁ s' e' h
              (by simp at hk ⊢; omega) hndtail hocc'
          have he₁offs : e₁.offsets = e.offsets := by rw [he₁]
          have he₁buf : e₁.buf = e.buf ++ [EmitItem.loadW (argRegIds.getD k 0) off₀] := by
            rw [he₁]
          refine ⟨EmitItem.loadW (argRegIds.getD k 0) off₀ :: loads', ?_, ?_, ?_, ?_, ?_,
            ?_, ?_, ?_⟩
          · rw [hbuf', he₁buf]
            simp
          · rw [hoffs', he₁offs]
          · simpa using hlen'
          · intro i hi
            cases i with
            | zero => exact ⟨off₀, rfl, hoff₀⟩
            | succ j =>
                have hj : j < rest.length := by simpa using hi
                obtain ⟨off, h1, h2⟩ := hidx' j hj
                refine ⟨off, ?_, ?_⟩
                · rw [show ((EmitItem.loadW (argRegIds.getD k 0) off₀ :: loads').getD (j + 1)
                      (.lab 0)) = loads'.getD j (.lab 0) from rfl, h1]
                  have harith : k + (j + 1) = k + 1 + j := by omega
                  rw [harith]
                · rw [show ((a :: rest).getD (j + 1) (.temp 0)) = rest.getD j (.temp 0) from rfl]
                  rw [← he₁offs]
                  exact h2
          · intro i hi
            cases i with
            | zero =>
                show dictLookup s'.bindings a.index = some (argRegIds.getD (k + 0) 0)
                have hb1 : dictLookup
                    (bindTemp s a.index (argRegIds.getD k 0)).bindings a.index
                    = some (argRegIds.getD k 0) := by
                  rw [bindTemp_bindings]
                  exact dictLookup_insert_self _ _ _
                exact hstab' a.index _ hb1 hindexnot
            | succ j =>
                have hj : j < rest.length := by simpa using hi
                have hres := hbind' j hj
                rw [show ((a :: rest).getD (j + 1) (.temp 0)) = rest.getD j (.temp 0) from rfl]
                have harith : k + (j + 1) = k + 1 + j := by omega
                rw [harith]
                exact hres
          · intro t v hv ht
            have htne : t ≠ a.index := by
              intro hc
              exact ht (by rw [hc]; exact List.mem_cons_self _ _)
            have hb1 : dictLookup (bindTemp s a.index (argRegIds.getD k 0)).bindings t
                = some v := by
              rw [bindTemp_bindings, dictLookup_insert_ne _ _ htne]
              exact hv
            refine hstab' t v hb1 ?_
            intro hc
            exact ht (List.mem_cons_of_mem _ hc)
          · intro r hr hro
            obtain ⟨j, hj, hrj⟩ := hoccf' r hr hro
            exact ⟨j, by simp at hj ⊢; omega, hrj⟩
          · intro item hitem
            rcases List.mem_cons.mp hitem with hmm | hmm
            · exact ⟨argRegIds.getD k 0, off₀, hmm⟩
            · exact hshape' item hmm

theorem allocOperands_allBound :
    ∀ (ops : List Operand) (s : AllocState) (e : SubEmitter) (o : List Nat)
      (isRead : Bool) (live : List Nat),
      (∀ t, Operand.temp t ∈ ops → ∃ r, dictLookup s.bindings t = some r) →
      ∃ regs, allocOperands s e o isRead live ops = .ok (s, e, o, regs) := by
  intro ops
  induction ops with
  | nil =>
      intro s e o isRead live _
      exact ⟨[], rfl⟩
  | cons op rest ih =>
      intro s e o isRead live hb
      obtain ⟨regs, hre⟩ := ih s e o isRead live
        (fun t ht => hb t (List.mem_cons_of_mem _ ht))
      cases op with
      | reg r =>
          exact ⟨r :: regs, by unfold allocOperands; dsimp only; rw [hre]; simp only [okBind]⟩
      | temp t =>
          obtain ⟨r, hr⟩ := hb t (List.mem_cons_self _ _)
          have h1 : allocRegFor s e o t isRead live = .ok (s, e, o, r) := by
            unfold allocRegFor
            rw [hr]
          exact ⟨r :: regs, by unfold allocOperands; dsimp only; rw [h1]; simp only [okBind]; rw [hre]; simp only [okBind]⟩

theorem findAvail_t0 (s : AllocState) (live : List Nat)
    (h : (getReg s 5).occupied = false) :
    findAvail s live allocatableIds = some 5 := by
  have hcons : allocatableIds
      = 5 :: [6, 7, 28, 29, 30, 31, 10, 11, 12, 13, 14, 15, 16, 17,
              9, 18, 19, 20, 21, 22, 23, 24, 25, 26, 27] := rfl
  rw [hcons]
  show (if (!(getReg s 5).occupied) || (!live.contains (getReg s 5).temp)
      then some 5
      else findAvail s live [6, 7, 28, 29, 30, 31, 10, 11, 12, 13, 14, 15, 16, 17,
              9, 18, 19, 20, 21, 22, 23, 24, 25, 26, 27]) = some 5
  rw [h]
  rfl

theorem allocTake_write (s : AllocState) (e : SubEmitter) (d r : Nat)
    (hocc : (getReg s r).occupied = false) :
    allocTake s e d false r = .ok (bindTemp s d r, e) := by
  have hne : ¬((getReg s r).occupied = true) := by
    rw [hocc]
    exact Bool.false_ne_true
  unfold allocTake
  rw [if_neg Bool.false_ne_true]
  show Except.ok
      (bindTemp (if (getReg s r).occupied = true
        then unbindTemp s (getReg s r).temp else s) d r, e)
    = Except.ok (bindTemp s d r, e)
  rw [if_neg hne]

theorem allocOperands_dst_t0 (ops : List Operand) (s : AllocState) (e : SubEmitter)
    (o : List Nat) (live : List Nat)
    (hlen : ops.length ≤ 1)
    (hT0 : (getReg s 5).occupied = false) :
    ∃ s₃ regs, allocOperands s e o false live ops = .ok (s₃, e, o, regs) := by
  cases ops with
  | nil => exact ⟨s, [], rfl⟩
  | cons op rest =>
      cases rest with
      | cons b t => simp at hlen
      | nil =>
          cases op with
          | reg r => exact ⟨s, [r], rfl⟩
          | temp d =>
              cases hb : dictLookup s.bindings d with
              | some r =>
                  have h1 : allocRegFor s e o d false live = .ok (s, e, o, r) := by
                    unfold allocRegFor
                    rw [hb]
                  exact ⟨s, [r], by unfold allocOperands; dsimp only; rw [h1]; simp only [okBind]; rfl⟩
              | none =>
                  have h2 : findAvail s live allocatableIds = some 5 :=
                    findAvail_t0 s live hT0
                  have h3 : allocTake s e d false 5 = .ok (bindTemp s d 5, e) :=
                    allocTake_write s e d 5 hT0
                  have h1 : allocRegFor s e o d false live
                      = .ok (bindTemp s d 5, e, o, 5) := by
                    unfold allocRegFor
                    rw [hb]
                    dsimp only
                    rw [h2]
                    dsimp only
                    rw [h3]
                    simp only [okBind]
                  exact ⟨bindTemp s d 5, [5], by unfold allocOperands; dsimp only; rw [h1]; simp only [okBind]; rfl⟩

theorem calleeSave_not_callerSave : ∀ r ∈ calleeSaveIds, r ∉ callerSaveIds := by
  decide

/-- **C1.** For every `Call` instruction successfully processed by
`BruteRegAlloc.allocForLoc` under a consistent allocator state: the
emitted segment is the caller-save spills, then the argument loads, then
the filled call instruction itself; the spills are exactly one store per
occupied caller-saved register, in `Riscv.CallerSaved` order, each to its
occupant temp's stack slot, and never name a callee-saved register; each
argument temp (all of them, when there are at most `len(Riscv.ArgRegs)`)
ends up bound to the fixed argument register of its position with one load
from the temp's stack slot into that register; and after the call phase
the only occupied caller-saved registers are argument registers. -/
theorem c1_callSiteConvention (s : AllocState) (e : SubEmitter) (o : List Nat)
    (instr : MInstr) (liveIn : List Nat)
    (s' : AllocState) (e' : SubEmitter) (o' : List Nat)
    (hkind : instr.kind = InstrKind.call)
    (hwf : WFState s)
    (hnd : (instr.srcs.map Operand.index).Nodup)
    (hlen : instr.srcs.length ≤ argRegIds.length)
    (hdsts : instr.dsts.length ≤ 1)
    (hrun : allocForLoc s e o instr liveIn = .ok (s', e', o')) :
    ∃ s₁ e₁ spills loads dstRegs srcRegs,
      callPhase s e instr.srcs = .ok (s₁, e₁) ∧
      e'.buf = e.buf ++ spills ++ loads ++ [.asm instr dstRegs srcRegs] ∧
      spills.length = (occupiedCallerIds s).length ∧
      (∀ i, i < (occupiedCallerIds s).length → ∃ off,
        spills.getD i (.lab 0)
          = EmitItem.storeW ((occupiedCallerIds s).getD i 0) off ∧
        dictLookup e'.offsets ((getReg s ((occupiedCallerIds s).getD i 0)).temp)
          = some off) ∧
      (∀ item, item ∈ spills → ∃ rg off,
        item = EmitItem.storeW rg off ∧ rg ∈ callerSaveIds) ∧
      (∀ r, r ∈ calleeSaveIds → ∀ off, EmitItem.storeW r off ∉ spills) ∧
      loads.length = instr.srcs.length ∧
      (∀ i, i < instr.srcs.length → ∃ off,
        loads.getD i (.lab 0) = EmitItem.loadW (argRegIds.getD i 0) off ∧
        dictLookup e'.offsets (instr.srcs.getD i (.temp 0)).index = some off) ∧
      (∀ i, i < instr.srcs.length →
        dictLookup s₁.bindings (instr.srcs.getD i (.temp 0)).index
          = some (argRegIds.getD i 0)) ∧
      (∀ r, r ∈ callerSaveIds → (getReg s₁ r).occupied = true →
        ∃ j, j < instr.srcs.length ∧ r = argRegIds.getD j 0) := by
  have hcall : instr.isCall = true := by
    unfold MInstr.isCall
    rw [hkind]
    rfl
  obtain ⟨s₁, e₁, hcp, hops⟩ := allocForLoc_call_inv hcall hrun
  have hbca : bindCallArgs (spillCallerSaved s e).1 (spillCallerSaved s e).2
      (List.enumFrom 0 instr.srcs) = .ok (s₁, e₁) := hcp
  obtain ⟨spills, hsbuf, hslen, hsidx, hsnone, hsshape⟩ :=
    spillCallerSaved_spec s e hwf
  obtain ⟨loads, hlbuf, hloff, hllen, hlidx, hlbind, hlstab, hloccf, hlshape⟩ :=
    bindCallArgs_spec instr.srcs 0 (spillCallerSaved s e).1 (spillCallerSaved s e).2
      s₁ e₁ hbca (by omega) hnd
      (fun r hr hro => absurd hro (by rw [hsnone r hr]; exact Bool.false_ne_true))
  obtain ⟨s₂, e₂, o₂, srcRegs, s₃, e₃, o₃, dstRegs, hsrc, hdst, hs', he', ho'⟩ :=
    allocOpsAndEmit_inv hops
  have hallb : ∀ t, Operand.temp t ∈ instr.srcs →
      ∃ r, dictLookup s₁.bindings t = some r := by
    intro t ht
    obtain ⟨i, hi, hgt⟩ := List.mem_iff_getElem.mp ht
    have hgd : instr.srcs.getD i (.temp 0) = Operand.temp t := by
      rw [List.getD_eq_getElem _ _ hi]
      exact hgt
    refine ⟨argRegIds.getD (0 + i) 0, ?_⟩
    have hbd := hlbind i hi
    rw [hgd] at hbd
    exact hbd
  obtain ⟨srcRegs₀, hsrc₀⟩ := allocOperands_allBound instr.srcs s₁ e₁ o true liveIn hallb
  have hinj1 := hsrc₀.symm.trans hsrc
  simp only [Except.ok.injEq, Prod.mk.injEq] at hinj1
  obtain ⟨h1, h2, h3, h4⟩ := hinj1
  subst h1
  subst h2
  subst h3
  have ht0 : (getReg s₁ 5).occupied = false := by
    cases hc : (getReg s₁ 5).occupied with
    | false => rfl
    | true =>
        obtain ⟨j, hj, h5⟩ := hloccf 5 (by decide) hc
        exact absurd h5.symm (argReg_ne_t0 j (by omega))
  obtain ⟨s₃', dstRegs₀, hdst₀⟩ :=
    allocOperands_dst_t0 instr.dsts s₁ e₁ o liveIn hdsts ht0
  have hinj2 := hdst₀.symm.trans hdst
  simp only [Except.ok.injEq, Prod.mk.injEq] at hinj2
  obtain ⟨h5, h6, h7, h8⟩ := hinj2
  subst h6
  subst h7
  have hoffeq : e'.offsets = (spillCallerSaved s e).2.offsets := by
    rw [he']
    exact hloff
  refine ⟨s₁, e₁, spills, loads, dstRegs, srcRegs, hcp, ?_, hslen, ?_, hsshape,
    ?_, hllen, ?_, ?_, ?_⟩
  · rw [he']
    show e₁.buf ++ [EmitItem.asm instr dstRegs srcRegs]
      = e.buf ++ spills ++ loads ++ [EmitItem.asm instr dstRegs srcRegs]
    rw [hlbuf, hsbuf]
  · intro i hi
    obtain ⟨off, ha, hb⟩ := hsidx i hi
    exact ⟨off, ha, by rw [hoffeq]; exact hb⟩
  · intro r hr off hmem
    obtain ⟨rg, off', heq, hrg⟩ := hsshape _ hmem
    injection heq with hq1 hq2
    refine absurd ?_ (calleeSave_not_callerSave r hr)
    rw [hq1]
    exact hrg
  · intro i hi
    obtain ⟨off, ha, hb⟩ := hlidx i hi
    rw [Nat.zero_add] at ha
    exact ⟨off, ha, by rw [hoffeq]; exact hb⟩
  · intro i hi
    have hbd := hlbind i hi
    rw [Nat.zero_add] at hbd
    exact hbd
  · intro r hr hro
    obtain ⟨j, hj, hrj⟩ := hloccf r hr hro
    exact ⟨j, by omega, hrj⟩

theorem c1_callSiteConvention_witness :
    ∃ s' e' o' s₁ e₁ spills loads dstRegs srcRegs,
      allocForLoc callSeedState callSeedEmitter [] callSeedInstr []
        = .ok (s', e', o') ∧
      callPhase callSeedState callSeedEmitter callSeedInstr.srcs = .ok (s₁, e₁) ∧
      e'.buf = callSeedEmitter.buf ++ spills ++ loads
        ++ [.asm callSeedInstr dstRegs srcRegs] ∧
      spills.length = (occupiedCallerIds callSeedState).length ∧
      loads.length = callSeedInstr.srcs.length := by
  obtain ⟨⟨s', e', o'⟩, hrun⟩ :
      ∃ p, allocForLoc callSeedState callSeedEmitter [] callSeedInstr [] = .ok p :=
    ⟨_, rfl⟩
  obtain ⟨s₁, e₁, spills, loads, dstRegs, srcRegs, hcp, hbuf, hslen, -, -, -,
      hllen, -, -, -⟩ :=
    c1_callSiteConvention callSeedState callSeedEmitter [] callSeedInstr []
      s' e' o' rfl (by unfold WFState; decide) (by decide) (by decide) (by decide)
      hrun
  exact ⟨s', e', o', s₁, e₁, spills, loads, dstRegs, srcRegs, hrun, hcp, hbuf,
    hslen, hllen⟩

end MiniDecaf
